import Mathlib

/-!
A shallow embedding of the tree-delta engine of `git2-ext` (`src/tree.rs`):
the changed-path diff (`get_changed_paths_between_trees`), the tree rebuild
(`rebuild_tree` / `remove_entry_if_exists`) and the tree filter
(`filter_tree`), together with theorems settling the specification claims
about them.

Modelling choices:
* The object store is content addressed: equality of ids coincides with
  equality of content.  We model an `ObjectId` as either an opaque blob id
  (`Oid.blob n`) or the content hash of a tree, represented by the tree's
  entry list itself (`Oid.tree entries`).  `find_tree` succeeds exactly on
  ids that are hashes of trees; looking up any other id is the store lookup
  failure (`git2::Error` from `repo.find_tree`).  The null/zero oid is
  represented by `Oid.blob 0`.
* A tree entry is `(name_bytes, id, filemode_raw)`; names are modelled as
  `String`, file modes as `Nat`.  As in libgit2, the kind of a tree entry
  (`entry.kind()`) is derived from its file mode: it is `ObjectType::Tree`
  exactly when `mode & 0o170000 == 0o040000`.
* Rust `HashMap`s keyed by entry name are modelled by association-list
  lookup (`lookupEntry`), with the last binding winning as in repeated
  `HashMap::insert`.  Iteration order of a `HashMap` is unspecified in
  Rust; the model fixes a deterministic order, and all set-valued claims
  are stated about the resulting set of paths.
* Paths (`PathBuf`) are modelled as lists of components (`List String`).
-/

namespace GitExt

/-- A content-addressed object id: either an opaque non-tree object id
(`blob`), or the content hash of a tree, identified with the tree's entry
list.  An entry is `(name, id, filemode)`. -/
inductive Oid : Type where
  | blob (n : Nat) : Oid
  | tree (entries : List (String × Oid × Nat)) : Oid

/-- A tree entry: `(name_bytes, id, filemode_raw)`. -/
abbrev TreeEntry := String × Oid × Nat

/-- A tree object: its list of entries. -/
abbrev Tree := List TreeEntry

/-- Boolean equality on object ids (content equality). -/
def Oid.beq : Oid → Oid → Bool
  | .blob m, .blob n => m == n
  | .blob _, .tree _ => false
  | .tree _, .blob _ => false
  | .tree [], .tree [] => true
  | .tree [], .tree (_ :: _) => false
  | .tree (_ :: _), .tree [] => false
  | .tree ((n1, i1, m1) :: es), .tree ((n2, i2, m2) :: fs) =>
      n1 == n2 && m1 == m2 && Oid.beq i1 i2 && Oid.beq (.tree es) (.tree fs)
termination_by o1 o2 => sizeOf o1
decreasing_by
  all_goals (simp_wf; try omega)

theorem Oid.beq_iff_eq : ∀ a b : Oid, Oid.beq a b = true ↔ a = b := by
  intro a b
  induction a, b using Oid.beq.induct
  all_goals simp_all [Oid.beq]
  intro _
  tauto

instance : DecidableEq Oid := fun a b =>
  decidable_of_iff (Oid.beq a b = true) (Oid.beq_iff_eq a b)

/-- The errors the engine can surface: a failed store lookup of a
referenced (sub)tree id (`repo.find_tree` returning `Err`). -/
inductive GitError : Type where
  | LookupFailed (id : Oid) : GitError
deriving DecidableEq

/-- `repo.find_tree(oid)`: resolve an id to its tree, failing when the id
does not denote a tree in the content-addressed store. -/
def find_tree : Oid → Except GitError Tree
  | .tree es => .ok es
  | .blob n => .error (.LookupFailed (.blob n))

/-- Whether a raw file mode denotes a tree entry (`S_ISDIR`), as used by
libgit2 to compute `entry.kind()`. -/
def filemode_is_tree (m : Nat) : Bool := m &&& 0o170000 == 0o040000

/-- The mode `git2::FileMode::Tree` (0o040000). -/
def treeFileMode : Nat := 0o040000

theorem filemode_is_tree_blobMode : filemode_is_tree 33188 = false := rfl

theorem filemode_is_tree_execMode : filemode_is_tree 33261 = false := rfl

theorem filemode_is_tree_linkMode : filemode_is_tree 40960 = false := rfl

theorem filemode_is_tree_treeMode : filemode_is_tree 16384 = true := rfl

theorem filemode_is_tree_treeMode1 : filemode_is_tree 16385 = true := rfl

/-- Whether an id is the null/zero oid (`Oid::is_zero`). -/
def Oid.isZero : Oid → Bool
  | .blob 0 => true
  | _ => false

/-- Name-keyed lookup used to model the `HashMap<&[u8], &TreeEntry>`s
built from the entry lists: later entries win, as with repeated `HashMap`
insertion while collecting the entries. -/
def lookupEntry : Tree → String → Option TreeEntry
  | [], _ => none
  | e :: rest, name =>
    match lookupEntry rest name with
    | some e' => some e'
    | none => if e.1 = name then some e else none

theorem lookupEntry_mem {t : Tree} {name : String} {e : TreeEntry}
    (h : lookupEntry t name = some e) : e ∈ t := by
  induction t with
  | nil => simp [lookupEntry] at h
  | cons hd tl ih =>
    rw [lookupEntry] at h
    cases htl : lookupEntry tl name with
    | some e' =>
      rw [htl] at h
      injection h with h
      subst h
      exact List.mem_cons_of_mem _ (ih htl)
    | none =>
      rw [htl] at h
      by_cases hname : hd.1 = name
      · simp only [if_pos hname] at h
        injection h with h
        exact h ▸ List.mem_cons_self _ _
      · simp [if_neg hname] at h

theorem lookupEntry_name {t : Tree} {name : String} {e : TreeEntry}
    (h : lookupEntry t name = some e) : e.1 = name := by
  induction t with
  | nil => simp [lookupEntry] at h
  | cons hd tl ih =>
    rw [lookupEntry] at h
    cases htl : lookupEntry tl name with
    | some e' =>
      rw [htl] at h
      injection h with h
      subst h
      exact ih htl
    | none =>
      rw [htl] at h
      by_cases hname : hd.1 = name
      · simp only [if_pos hname] at h
        injection h with h
        exact h ▸ hname
      · simp [if_neg hname] at h

/-- The names of a tree's entries. -/
def treeNames (t : Tree) : List String := t.map (fun e => e.1)

/-- Deduplicate a name list, keeping first occurrences (the set of names;
`HashSet` iteration order is unspecified in Rust, the model fixes one). -/
def dedupNames : List String → List String
  | [] => []
  | n :: rest => n :: dedupNames (rest.filter (fun m => m ≠ n))
termination_by l => l.length
decreasing_by
  simp only [List.length_cons]
  have := List.length_filter_le (fun m => m ≠ n) rest
  omega

/-- The union of the entry names of the two sides
(`all_entry_names : HashSet<&[u8]>`). -/
def unionNames (lhs rhs : Tree) : List String :=
  dedupNames (treeNames lhs ++ treeNames rhs)

/-- The per-side classification of an optional entry
(`ClassifiedEntry` in `get_changed_paths_between_trees_internal`). -/
inductive ClassifiedEntry : Type where
  | Absent : ClassifiedEntry
  | NotATree (id : Oid) (mode : Nat) : ClassifiedEntry
  | Tree (id : Oid) (mode : Nat) : ClassifiedEntry
deriving DecidableEq

/-- `classify_entry`: an absent entry is `Absent`; otherwise the entry is
`Tree`/`NotATree` according to `entry.kind()`, which libgit2 derives from
the raw file mode. -/
def classify_entry : Option TreeEntry → ClassifiedEntry
  | none => .Absent
  | some (_, id, mode) =>
    if filemode_is_tree mode then .Tree id mode else .NotATree id mode

theorem classify_entry_tree {o : Option TreeEntry} {id : Oid} {m : Nat}
    (h : classify_entry o = .Tree id m) :
    ∃ nm, o = some (nm, id, m) ∧ filemode_is_tree m = true := by
  match o with
  | none => simp [classify_entry] at h
  | some (nm, i, mm) =>
    simp only [classify_entry] at h
    by_cases hm : filemode_is_tree mm
    · rw [if_pos hm] at h
      injection h with h1 h2
      exact ⟨nm, by rw [h1, h2], h2 ▸ hm⟩
    · rw [if_neg hm] at h
      exact absurd h (by simp)

theorem find_tree_ok {id : Oid} {t : Tree} (h : find_tree id = .ok t) :
    id = .tree t := by
  cases id with
  | blob n => simp [find_tree] at h
  | tree es =>
    simp only [find_tree] at h
    injection h with h
    rw [h]

/-- Size bound used for the termination of the diff recursion: a subtree
resolved from a classified `Tree` entry of `t` is strictly smaller than
`t`. -/
theorem lookup_tree_size {t : Tree} {name : String} {id : Oid} {m : Nat}
    {sub : Tree} (h : classify_entry (lookupEntry t name) = .Tree id m)
    (hf : find_tree id = .ok sub) : sizeOf sub < sizeOf t := by
  obtain ⟨nm, ho, -⟩ := classify_entry_tree h
  have hm := lookupEntry_mem ho
  have h1 := List.sizeOf_lt_of_mem hm
  have h2 := find_tree_ok hf
  subst h2
  simp only [Prod.mk.sizeOf_spec, Oid.tree.sizeOf_spec] at h1
  omega

theorem tree_sizeOf_pos (t : Tree) : 1 ≤ sizeOf t := by
  cases t
  · simp
  · simp only [List.cons.sizeOf_spec]
    omega

mutual

/-- The body of the per-entry-name loop of
`get_changed_paths_between_trees_internal` (the `match` on the two
classified entries): the paths pushed to `acc` for one entry name, or the
propagated lookup error. -/
def diffOne (current_path : List String) (lhs rhs : Tree) (entry_name : String) :
    Except GitError (List (List String)) :=
  let full_entry_path := current_path ++ [entry_name]
  match hl : classify_entry (lookupEntry lhs entry_name),
        hr : classify_entry (lookupEntry rhs entry_name) with
  | .Absent, .Absent => .ok []
  | .NotATree lhs_oid lhs_mode, .NotATree rhs_oid rhs_mode =>
    if Oid.beq lhs_oid rhs_oid && lhs_mode == rhs_mode then .ok []
    else .ok [full_entry_path]
  | .Absent, .NotATree _ _ => .ok [full_entry_path]
  | .NotATree _ _, .Absent => .ok [full_entry_path]
  | .Absent, .Tree tree_oid _ =>
    match hf : find_tree tree_oid with
    | .error e => .error e
    | .ok tr => diffTrees full_entry_path tr []
  | .Tree tree_oid _, .Absent =>
    match hf : find_tree tree_oid with
    | .error e => .error e
    | .ok tr => diffTrees full_entry_path tr []
  | .NotATree _ _, .Tree tree_oid _ =>
    match hf : find_tree tree_oid with
    | .error e => .error e
    | .ok tr =>
      match diffTrees full_entry_path tr [] with
      | .error e => .error e
      | .ok inner => .ok (inner ++ [full_entry_path])
  | .Tree tree_oid _, .NotATree _ _ =>
    match hf : find_tree tree_oid with
    | .error e => .error e
    | .ok tr =>
      match diffTrees full_entry_path tr [] with
      | .error e => .error e
      | .ok inner => .ok (inner ++ [full_entry_path])
  | .Tree lhs_tree_oid lhs_file_mode, .Tree rhs_tree_oid rhs_file_mode =>
    if Oid.beq lhs_tree_oid rhs_tree_oid then
      if lhs_file_mode == rhs_file_mode then .ok []
      else .ok [full_entry_path]
    else
      match hfl : find_tree lhs_tree_oid with
      | .error e => .error e
      | .ok lhs_tree =>
        match hfr : find_tree rhs_tree_oid with
        | .error e => .error e
        | .ok rhs_tree =>
          if lhs_file_mode == rhs_file_mode then
            diffTrees full_entry_path lhs_tree rhs_tree
          else
            match diffTrees full_entry_path lhs_tree rhs_tree with
            | .error e => .error e
            | .ok inner => .ok (inner ++ [full_entry_path])
termination_by (sizeOf lhs + sizeOf rhs, 0, 0)
decreasing_by
  all_goals simp_wf
  all_goals
    apply Prod.Lex.left
    first
      | (have h1 := lookup_tree_size hr hf
         have h2 := tree_sizeOf_pos lhs
         omega)
      | (have h1 := lookup_tree_size hl hf
         have h2 := tree_sizeOf_pos rhs
         omega)
      | (have h1 := lookup_tree_size hl hfl
         have h2 := lookup_tree_size hr hfr
         omega)

/-- The entry-name loop of `get_changed_paths_between_trees_internal`.
The accumulator `acc: &mut Vec<Vec<PathBuf>>` is modelled by returning the
list of paths pushed while processing `names`; an error while processing
any name aborts the loop.  An absent tree (`None` in the source) is the
empty entry list. -/
def diffNames (current_path : List String) (lhs rhs : Tree) :
    List String → Except GitError (List (List String))
  | [] => .ok []
  | entry_name :: rest =>
    match diffOne current_path lhs rhs entry_name with
    | .error e => .error e
    | .ok l1 =>
      match diffNames current_path lhs rhs rest with
      | .error e => .error e
      | .ok l2 => .ok (l1 ++ l2)
termination_by names => (sizeOf lhs + sizeOf rhs, 0, names.length)
decreasing_by
  all_goals simp_wf
  · apply Prod.Lex.right
    apply Prod.Lex.right
    omega
  · apply Prod.Lex.right
    apply Prod.Lex.right
    omega

/-- `get_changed_paths_between_trees_internal`: diff two (possibly empty)
trees, reporting the changed paths below `current_path`. -/
def diffTrees (current_path : List String) (lhs rhs : Tree) :
    Except GitError (List (List String)) :=
  diffNames current_path lhs rhs (unionNames lhs rhs)
termination_by (sizeOf lhs + sizeOf rhs, 1, 0)
decreasing_by
  all_goals simp_wf
  apply Prod.Lex.right
  apply Prod.Lex.left
  omega

end

/-- `get_changed_paths_between_trees`: run the traversal from the root and
collect the accumulated paths into a set (`HashSet<PathBuf>`). -/
def get_changed_paths_between_trees (lhs rhs : Option Tree) :
    Except GitError (Finset (List String)) :=
  (diffTrees [] (lhs.getD []) (rhs.getD [])).map List.toFinset

/-- A sparse edit map, `HashMap<PathBuf, Option<(Oid, i32)>>`: path (as a
list of components) to `some (id, filemode)` (set the entry) or `none`
(delete the entry), modelled as an association list; the maps produced by
`HashMap` have pairwise distinct keys. -/
abbrev EditMap := List (List String × Option (Oid × Nat))

/-- `HashMap::insert`: replace the binding of `k` in place if present,
otherwise add it. -/
def insertAssoc {α β : Type} [DecidableEq α] (k : α) (v : β) :
    List (α × β) → List (α × β)
  | [] => [(k, v)]
  | (k', v') :: rest =>
    if k' = k then (k, v) :: rest else (k', v') :: insertAssoc k v rest

/-- `HashMap` lookup on an association list with distinct keys. -/
def lookupAssoc {α β : Type} [DecidableEq α] (k : α) :
    List (α × β) → Option β
  | [] => none
  | (k', v) :: rest => if k' = k then some v else lookupAssoc k rest

/-- The partition of the edit map into direct entries (single-component
paths) and grouped subtree edits (first component mapped to the edit map
of stripped remaining paths), as in the first block of `rebuild_tree`.
`HashMap` iteration order is unspecified in Rust; the model processes the
list from the right, which on the distinct-key maps a `HashMap` produces
yields the same two maps. -/
def partitionEdits :
    EditMap → (List (String × Option (Oid × Nat))) × (List (String × EditMap))
  | [] => ([], [])
  | (path, value) :: rest =>
    let fd := partitionEdits rest
    match path with
    | [] => fd
    | [file_name] => (insertAssoc file_name value fd.1, fd.2)
    | first :: restPath =>
      (fd.1,
       insertAssoc first
         (insertAssoc restPath value ((lookupAssoc first fd.2).getD [])) fd.2)

/-- `TreeBuilder::remove` (by name). -/
def removeEntry (b : Tree) (name : String) : Tree :=
  b.filter (fun e => e.1 ≠ name)

/-- `TreeBuilder::insert`: set the binding of `name` to `(id, mode)`. -/
def builderInsert (b : Tree) (name : String) (id : Oid) (mode : Nat) : Tree :=
  removeEntry b name ++ [(name, id, mode)]

/-- `remove_entry_if_exists`: `libgit2` errors when removing an absent
entry, so removal is guarded by a lookup. -/
def remove_entry_if_exists (builder : Tree) (name : String) : Tree :=
  match lookupEntry builder name with
  | some _ => removeEntry builder name
  | none => builder

/-- Total number of path components of an edit map (the termination
measure of the rebuild recursion). -/
def editWeight (em : EditMap) : Nat := (em.map (fun e => e.1.length)).sum

/-- Measure of a grouped dir-entry list. -/
def dirsWeight (dirs : List (String × EditMap)) : Nat :=
  (dirs.map (fun d => editWeight d.2 + 1)).sum

theorem editWeight_nil : editWeight [] = 0 := rfl

theorem editWeight_cons (p : List String) (v : Option (Oid × Nat))
    (tl : EditMap) : editWeight ((p, v) :: tl) = p.length + editWeight tl := by
  simp [editWeight]

theorem dirsWeight_nil : dirsWeight [] = 0 := rfl

theorem dirsWeight_cons (k : String) (g : EditMap)
    (tl : List (String × EditMap)) :
    dirsWeight ((k, g) :: tl) = editWeight g + 1 + dirsWeight tl := by
  simp [dirsWeight]

theorem editWeight_insertAssoc (r : List String) (v : Option (Oid × Nat)) :
    ∀ g : EditMap, editWeight (insertAssoc r v g) ≤ editWeight g + r.length
  | [] => by
    simp only [insertAssoc, editWeight_cons, editWeight_nil]
    omega
  | (p, w) :: tl => by
    rw [insertAssoc]
    by_cases hk : p = r
    · subst hk
      rw [if_pos rfl, editWeight_cons, editWeight_cons]
      omega
    · rw [if_neg hk, editWeight_cons, editWeight_cons]
      have := editWeight_insertAssoc r v tl
      omega

theorem dirsWeight_update (k : String) (r : List String)
    (v : Option (Oid × Nat)) :
    ∀ dirs : List (String × EditMap),
      dirsWeight (insertAssoc k (insertAssoc r v ((lookupAssoc k dirs).getD [])) dirs) ≤
        dirsWeight dirs + r.length + 1
  | [] => by
    simp only [lookupAssoc, Option.getD_none, insertAssoc, dirsWeight_cons,
      dirsWeight_nil, editWeight_cons, editWeight_nil]
    omega
  | (k', g') :: tl => by
    by_cases hk : k' = k
    · subst hk
      simp [lookupAssoc, insertAssoc, dirsWeight_cons]
      have := editWeight_insertAssoc r v g'
      omega
    · simp only [lookupAssoc, if_neg hk, insertAssoc, dirsWeight_cons]
      have := dirsWeight_update k r v tl
      omega

theorem partition_dirsWeight :
    ∀ em : EditMap, dirsWeight (partitionEdits em).2 ≤ editWeight em
  | [] => by simp [partitionEdits, dirsWeight_nil, editWeight_nil]
  | (([] : List String), v) :: tl => by
    have h1 : partitionEdits (([], v) :: tl) = partitionEdits tl := rfl
    rw [h1, editWeight_cons]
    have := partition_dirsWeight tl
    omega
  | ([f], v) :: tl => by
    have h1 : (partitionEdits (([f], v) :: tl)).2 = (partitionEdits tl).2 := rfl
    rw [h1, editWeight_cons]
    have := partition_dirsWeight tl
    omega
  | (first :: p2 :: restPath, v) :: tl => by
    have h1 : (partitionEdits ((first :: p2 :: restPath, v) :: tl)).2 =
        insertAssoc first
          (insertAssoc (p2 :: restPath) v
            ((lookupAssoc first (partitionEdits tl).2).getD []))
          (partitionEdits tl).2 := rfl
    rw [h1, editWeight_cons]
    have h2 := dirsWeight_update first (p2 :: restPath) v (partitionEdits tl).2
    have h3 := partition_dirsWeight tl
    simp only [List.length_cons] at h2 ⊢
    omega

theorem prodLex_of_le_of_lt {a b c d : Nat} (h1 : a ≤ b) (h2 : c < d) :
    Prod.Lex (· < ·) (· < ·) (a, c) (b, d) := by
  rcases Nat.lt_or_ge a b with h | h
  · exact Prod.Lex.left _ _ h
  · have : a = b := Nat.le_antisymm h1 h
    subst this
    exact Prod.Lex.right _ h2

/-- One step of the direct-entry loop of `rebuild_tree`: a `Some` edit
upserts the entry, a `None` edit removes it if present. -/
def applyFileEdit (b : Tree) (fe : String × Option (Oid × Nat)) : Tree :=
  match fe.2 with
  | some (oid, file_mode) => builderInsert b fe.1 oid file_mode
  | none => remove_entry_if_exists b fe.1

/-- The `existing_dir_entry` computation of `rebuild_tree`: the existing
child entry of the builder, if it is a non-zero tree-kind entry, resolved
to its tree (propagating a failed lookup); `none` otherwise. -/
def builderExistingTree (builder : Tree) (dir_name : String) :
    Except GitError (Option Tree) :=
  match lookupEntry builder dir_name with
  | some (_, id, mode) =>
    if !Oid.isZero id && filemode_is_tree mode then
      match find_tree id with
      | .error e => .error e
      | .ok t => .ok (some t)
    else .ok none
  | none => .ok none

mutual

/-- `rebuild_tree`: apply a sparse edit map to an optional base tree,
recursively rebuilding subtrees for grouped multi-component edits.  The
id of the written result tree is returned (`builder.write()`); in the
content-addressed model the write is `Oid.tree` of the final builder. -/
def rebuild_tree (base : Option Tree) (entries : EditMap) :
    Except GitError Oid :=
  let fd := partitionEdits entries
  let builder1 := fd.1.foldl applyFileEdit (base.getD [])
  match rebuildDirs builder1 fd.2 with
  | .error e => .error e
  | .ok builder2 => .ok (.tree builder2)
termination_by (editWeight entries, 1)
decreasing_by
  simp_wf
  exact prodLex_of_le_of_lt (partition_dirsWeight entries) (by omega)

/-- The grouped-subtree loop of `rebuild_tree`: for each first component,
find the existing child tree (if the builder has a non-zero tree-kind
entry of that name), recursively rebuild it with the stripped edits, then
prune the name if the rebuilt child is empty, else upsert it as a subtree
entry. -/
def rebuildDirs (builder : Tree) :
    List (String × EditMap) → Except GitError Tree
  | [] => .ok builder
  | (dir_name, dir_value) :: rest =>
    match builderExistingTree builder dir_name with
    | .error e => .error e
    | .ok existing_dir_entry =>
      match rebuild_tree existing_dir_entry dir_value with
      | .error e => .error e
      | .ok new_entry_oid =>
        match find_tree new_entry_oid with
        | .error e => .error e
        | .ok new_entry_tree =>
          if new_entry_tree.isEmpty then
            rebuildDirs (remove_entry_if_exists builder dir_name) rest
          else
            rebuildDirs (builderInsert builder dir_name new_entry_oid treeFileMode) rest
termination_by dirs => (dirsWeight dirs, 0)
decreasing_by
  all_goals simp_wf
  · apply Prod.Lex.left
    simp only [dirsWeight, List.map_cons, List.sum_cons]
    omega
  all_goals
    apply Prod.Lex.left
    simp only [dirsWeight, List.map_cons, List.sum_cons]
    omega

end

/-- `Tree::get_path`: read the entry at a (non-empty) path, descending
through subtree ids; absent paths (including paths through non-tree
entries) are `none` (`ErrorCode::NotFound`). -/
def treeGetPath : Tree → List String → Option (Oid × Nat)
  | _, [] => none
  | t, [f] => (lookupEntry t f).map (fun e => (e.2.1, e.2.2))
  | t, f :: rest =>
    match lookupEntry t f with
    | some (_, id, _) =>
      match id with
      | .tree sub => treeGetPath sub rest
      | .blob _ => none
    | none => none

/-- `filter_tree`: keep only the given paths of a tree, by reading each
requested path's current entry (absent paths map to `none` edits) and
rebuilding against the empty base. -/
def filter_tree (tree : Tree) (paths : List (List String)) :
    Except GitError Oid :=
  rebuild_tree none (paths.map (fun p => (p, treeGetPath tree p)))

/-! ### Lookup lemmas for the builder operations -/

theorem lookupEntry_nil (n : String) : lookupEntry [] n = none := rfl

theorem lookupEntry_removeEntry_self (t : Tree) (f : String) :
    lookupEntry (removeEntry t f) f = none := by
  induction t with
  | nil => rfl
  | cons e rest ih =>
    by_cases he : e.1 = f <;>
      simp_all [removeEntry, List.filter_cons, lookupEntry, he]

theorem lookupEntry_removeEntry_other {f n : String} (t : Tree) (h : n ≠ f) :
    lookupEntry (removeEntry t f) n = lookupEntry t n := by
  induction t with
  | nil => rfl
  | cons e rest ih =>
    by_cases he : e.1 = f
    · have hnn : ¬ e.1 = n := by rw [he]; exact fun hc => h hc.symm
      simp_all [removeEntry, List.filter_cons, lookupEntry, he, hnn]
      cases lookupEntry rest n <;> rfl
    · simp_all [removeEntry, List.filter_cons, lookupEntry, he]

theorem lookupEntry_append (t2 : Tree) (n : String) :
    ∀ t1, lookupEntry (t1 ++ t2) n =
      match lookupEntry t2 n with
      | some e => some e
      | none => lookupEntry t1 n
  | [] => by cases h2 : lookupEntry t2 n <;> simp [lookupEntry, h2]
  | e :: rest => by
    have ih := lookupEntry_append t2 n rest
    rw [List.cons_append,
      show lookupEntry (e :: (rest ++ t2)) n =
        (match lookupEntry (rest ++ t2) n with
         | some e' => some e'
         | none => if e.1 = n then some e else none) from rfl,
      ih]
    cases h2 : lookupEntry t2 n
    · rfl
    · rfl

theorem lookupEntry_builderInsert_self (b : Tree) (f : String) (id : Oid)
    (m : Nat) : lookupEntry (builderInsert b f id m) f = some (f, id, m) := by
  rw [builderInsert, lookupEntry_append]
  simp [lookupEntry]

theorem lookupEntry_builderInsert_other {f n : String} (b : Tree) (id : Oid)
    (m : Nat) (h : n ≠ f) :
    lookupEntry (builderInsert b f id m) n = lookupEntry b n := by
  rw [builderInsert, lookupEntry_append]
  simp only [lookupEntry, if_neg (fun hc : f = n => h hc.symm)]
  exact lookupEntry_removeEntry_other b h

theorem lookupEntry_removeIfExists_self (b : Tree) (f : String) :
    lookupEntry (remove_entry_if_exists b f) f = none := by
  rw [remove_entry_if_exists]
  cases hb : lookupEntry b f with
  | some e => exact lookupEntry_removeEntry_self b f
  | none => exact hb

theorem lookupEntry_removeIfExists_other {f n : String} (b : Tree) (h : n ≠ f) :
    lookupEntry (remove_entry_if_exists b f) n = lookupEntry b n := by
  rw [remove_entry_if_exists]
  cases hb : lookupEntry b f with
  | some e => exact lookupEntry_removeEntry_other b h
  | none => rfl

theorem mem_removeEntry {t : Tree} {f : String} {e : TreeEntry} :
    e ∈ removeEntry t f ↔ e ∈ t ∧ e.1 ≠ f := by
  simp [removeEntry, List.mem_filter]

theorem mem_builderInsert {b : Tree} {f : String} {id : Oid} {m : Nat}
    {e : TreeEntry} :
    e ∈ builderInsert b f id m ↔ (e ∈ b ∧ e.1 ≠ f) ∨ e = (f, id, m) := by
  simp [builderInsert, mem_removeEntry]

theorem mem_removeIfExists {b : Tree} {f : String} {e : TreeEntry}
    (h : e ∈ b) (hne : e.1 ≠ f) : e ∈ remove_entry_if_exists b f := by
  rw [remove_entry_if_exists]
  cases lookupEntry b f with
  | some e' => exact mem_removeEntry.mpr ⟨h, hne⟩
  | none => exact h

theorem mem_of_mem_removeIfExists {b : Tree} {f : String} {e : TreeEntry}
    (h : e ∈ remove_entry_if_exists b f) : e ∈ b := by
  rw [remove_entry_if_exists] at h
  revert h
  cases lookupEntry b f with
  | some e' => exact fun h => (mem_removeEntry.mp h).1
  | none => exact id

/-! ### Basic equations of the diff traversal -/

theorem diffNames_nil (cp : List String) (lhs rhs : Tree) :
    diffNames cp lhs rhs [] = .ok [] := by
  simp [diffNames]

theorem diffNames_cons (cp : List String) (lhs rhs : Tree) (n : String)
    (rest : List String) :
    diffNames cp lhs rhs (n :: rest) =
      match diffOne cp lhs rhs n with
      | .error e => .error e
      | .ok l1 =>
        match diffNames cp lhs rhs rest with
        | .error e => .error e
        | .ok l2 => .ok (l1 ++ l2) := by
  rw [diffNames]

theorem diffTrees_eq (cp : List String) (lhs rhs : Tree) :
    diffTrees cp lhs rhs = diffNames cp lhs rhs (unionNames lhs rhs) := by
  rw [diffTrees]

theorem diffOne_skip {lhs rhs : Tree} {n : String} (cp : List String)
    (h : lookupEntry lhs n = lookupEntry rhs n) :
    diffOne cp lhs rhs n = .ok [] := by
  rw [diffOne, h]
  cases hcl : classify_entry (lookupEntry rhs n) <;>
    simp [hcl, Oid.beq_iff_eq]

theorem diffNames_skipAll {lhs rhs : Tree} (cp : List String)
    {ns : List String} (h : ∀ n ∈ ns, lookupEntry lhs n = lookupEntry rhs n) :
    diffNames cp lhs rhs ns = .ok [] := by
  induction ns with
  | nil => exact diffNames_nil cp lhs rhs
  | cons n rest ih =>
    rw [diffNames_cons, diffOne_skip cp (h n (List.mem_cons_self n rest)),
      ih (fun m hm => h m (List.mem_cons_of_mem n hm))]
    rfl

theorem diffTrees_self (cp : List String) (t : Tree) :
    diffTrees cp t t = .ok [] := by
  rw [diffTrees_eq]
  exact diffNames_skipAll cp (fun _ _ => rfl)

/-- **C4**: diffing any tree (present or absent) against itself yields the
empty changed-path set. -/
theorem diff_self_empty (t : Option Tree) :
    get_changed_paths_between_trees t t = .ok ∅ := by
  rw [get_changed_paths_between_trees, diffTrees_self]
  rfl

/-- Every path the traversal reports strictly extends the current path:
the `acc` entries are `full_entry_path`s built below `current_path`. -/
theorem diff_paths_shape :
    ∀ N : Nat, ∀ lhs rhs : Tree, sizeOf lhs + sizeOf rhs ≤ N →
      (∀ cp n l, diffOne cp lhs rhs n = .ok l →
        ∀ q ∈ l, ∃ s, s ≠ [] ∧ q = cp ++ s) ∧
      (∀ cp ns l, diffNames cp lhs rhs ns = .ok l →
        ∀ q ∈ l, ∃ s, s ≠ [] ∧ q = cp ++ s) := by
  intro N
  induction N using Nat.strong_induction_on with
  | _ N IH =>
  intro lhs rhs hsz
  have HRec : ∀ (tr : Tree) (cp' : List String) (l : List (List String)),
      sizeOf tr + 1 < N → diffTrees cp' tr [] = .ok l →
      ∀ q ∈ l, ∃ s, s ≠ [] ∧ q = cp' ++ s := by
    intro tr cp' l hlt h q hq
    rw [diffTrees_eq] at h
    exact (IH (sizeOf tr + 1) hlt tr []
      (by simp only [List.nil.sizeOf_spec]; omega)).2 cp' _ l h q hq
  have HRec2 : ∀ (t1 t2 : Tree) (cp' : List String) (l : List (List String)),
      sizeOf t1 + sizeOf t2 < N → diffTrees cp' t1 t2 = .ok l →
      ∀ q ∈ l, ∃ s, s ≠ [] ∧ q = cp' ++ s := by
    intro t1 t2 cp' l hlt h q hq
    rw [diffTrees_eq] at h
    exact (IH (sizeOf t1 + sizeOf t2) hlt t1 t2 le_rfl).2 cp' _ l h q hq
  have HOne : ∀ cp n l, diffOne cp lhs rhs n = .ok l →
      ∀ q ∈ l, ∃ s, s ≠ [] ∧ q = cp ++ s := by
    intro cp n l h q hq
    rw [diffOne] at h
    split at h
    · injection h with h; subst h; simp at hq
    · split at h
      · injection h with h; subst h; simp at hq
      · injection h with h; subst h
        simp only [List.mem_singleton] at hq
        exact ⟨[n], by simp, hq⟩
    · injection h with h; subst h
      simp only [List.mem_singleton] at hq
      exact ⟨[n], by simp, hq⟩
    · injection h with h; subst h
      simp only [List.mem_singleton] at hq
      exact ⟨[n], by simp, hq⟩
    · rename_i tid md hl hr
      split at h
      · exact absurd h (by simp)
      · rename_i tr hf'
        have hsub : sizeOf tr < sizeOf rhs := lookup_tree_size hr hf'
        have h1 := tree_sizeOf_pos lhs
        obtain ⟨s, hs, hqe⟩ := HRec tr (cp ++ [n]) l (by omega) h q hq
        exact ⟨n :: s, by simp, by simp [hqe]⟩
    · rename_i tid md hl hr
      split at h
      · exact absurd h (by simp)
      · rename_i tr hf'
        have hsub : sizeOf tr < sizeOf lhs := lookup_tree_size hl hf'
        have h1 := tree_sizeOf_pos rhs
        obtain ⟨s, hs, hqe⟩ := HRec tr (cp ++ [n]) l (by omega) h q hq
        exact ⟨n :: s, by simp, by simp [hqe]⟩
    · rename_i a1 a2 tid md hl hr
      split at h
      · exact absurd h (by simp)
      · rename_i tr hf'
        split at h
        · exact absurd h (by simp)
        · rename_i inner hinner
          injection h with h; subst h
          rcases List.mem_append.mp hq with hq1 | hq2
          · have hsub : sizeOf tr < sizeOf rhs := lookup_tree_size hr hf'
            have h1 := tree_sizeOf_pos lhs
            obtain ⟨s, hs, hqe⟩ := HRec tr (cp ++ [n]) inner (by omega) hinner q hq1
            exact ⟨n :: s, by simp, by simp [hqe]⟩
          · simp only [List.mem_singleton] at hq2
            exact ⟨[n], by simp, hq2⟩
    · rename_i tid md a1 a2 hl hr
      split at h
      · exact absurd h (by simp)
      · rename_i tr hf'
        split at h
        · exact absurd h (by simp)
        · rename_i inner hinner
          injection h with h; subst h
          rcases List.mem_append.mp hq with hq1 | hq2
          · have hsub : sizeOf tr < sizeOf lhs := lookup_tree_size hl hf'
            have h1 := tree_sizeOf_pos rhs
            obtain ⟨s, hs, hqe⟩ := HRec tr (cp ++ [n]) inner (by omega) hinner q hq1
            exact ⟨n :: s, by simp, by simp [hqe]⟩
          · simp only [List.mem_singleton] at hq2
            exact ⟨[n], by simp, hq2⟩
    · rename_i ltid lmd rtid rmd hl hr
      split at h
      · split at h
        · injection h with h; subst h; simp at hq
        · injection h with h; subst h
          simp only [List.mem_singleton] at hq
          exact ⟨[n], by simp, hq⟩
      · split at h
        · exact absurd h (by simp)
        · rename_i ltr hfl'
          split at h
          · exact absurd h (by simp)
          · rename_i rtr hfr'
            have hsubl : sizeOf ltr < sizeOf lhs := lookup_tree_size hl hfl'
            have hsubr : sizeOf rtr < sizeOf rhs := lookup_tree_size hr hfr'
            split at h
            · obtain ⟨s, hs, hqe⟩ :=
                HRec2 ltr rtr (cp ++ [n]) l (by omega) h q hq
              exact ⟨n :: s, by simp, by simp [hqe]⟩
            · split at h
              · exact absurd h (by simp)
              · rename_i inner hinner
                injection h with h; subst h
                rcases List.mem_append.mp hq with hq1 | hq2
                · obtain ⟨s, hs, hqe⟩ :=
                    HRec2 ltr rtr (cp ++ [n]) inner (by omega) hinner q hq1
                  exact ⟨n :: s, by simp, by simp [hqe]⟩
                · simp only [List.mem_singleton] at hq2
                  exact ⟨[n], by simp, hq2⟩
  refine ⟨HOne, ?_⟩
  intro cp ns
  induction ns with
  | nil =>
    intro l h q hq
    rw [diffNames_nil] at h
    injection h with h; subst h
    simp at hq
  | cons n rest ihns =>
    intro l h q hq
    rw [diffNames_cons] at h
    cases h1 : diffOne cp lhs rhs n with
    | error e => rw [h1] at h; exact absurd h (by simp)
    | ok l1 =>
      rw [h1] at h
      cases h2 : diffNames cp lhs rhs rest with
      | error e => rw [h2] at h; exact absurd h (by simp)
      | ok l2 =>
        rw [h2] at h
        injection h with h; subst h
        rcases List.mem_append.mp hq with hq1 | hq2
        · exact HOne cp n l1 h1 q hq1
        · exact ihns l2 h2 q hq2

theorem diffTrees_paths_shape {cp : List String} {t1 t2 : Tree}
    {l : List (List String)} (h : diffTrees cp t1 t2 = .ok l) :
    ∀ q ∈ l, ∃ s, s ≠ [] ∧ q = cp ++ s := by
  rw [diffTrees_eq] at h
  exact (diff_paths_shape (sizeOf t1 + sizeOf t2) t1 t2 le_rfl).2 cp _ l h

theorem diffTrees_self_path_not_mem {cp : List String} {t1 t2 : Tree}
    {l : List (List String)} (h : diffTrees cp t1 t2 = .ok l) : cp ∉ l := by
  intro hc
  obtain ⟨s, hs, hqe⟩ := diffTrees_paths_shape h cp hc
  exact hs (by simpa using hqe.symm)

/-- **C1**: for a name present as a subtree entry on both sides, the
per-name decision of the diff is exactly the four-cell table: equal id and
mode reports nothing without recursing (the trees are never resolved, so
this holds even for unresolvable ids); equal id with different mode
reports only the directory's own path, again without recursing; different
ids with equal mode recurse into both subtrees and report exactly the
inner changed paths — never the directory's own path; different ids and
different modes recurse and additionally report the directory's own path
after the inner paths. -/
theorem tree_tree_decision (cp : List String) (lhs rhs : Tree) (n : String)
    (a b : Oid) (m1 m2 : Nat)
    (hl : lookupEntry lhs n = some (n, a, m1))
    (hr : lookupEntry rhs n = some (n, b, m2))
    (ta : filemode_is_tree m1 = true) (tb : filemode_is_tree m2 = true) :
    (a = b → m1 = m2 → diffOne cp lhs rhs n = .ok []) ∧
    (a = b → m1 ≠ m2 → diffOne cp lhs rhs n = .ok [cp ++ [n]]) ∧
    (a ≠ b → m1 = m2 → ∀ A B, find_tree a = .ok A → find_tree b = .ok B →
      diffOne cp lhs rhs n = diffTrees (cp ++ [n]) A B ∧
      (∀ l, diffTrees (cp ++ [n]) A B = .ok l → (cp ++ [n]) ∉ l)) ∧
    (a ≠ b → m1 ≠ m2 → ∀ A B, find_tree a = .ok A → find_tree b = .ok B →
      diffOne cp lhs rhs n =
        (diffTrees (cp ++ [n]) A B).map (fun inner => inner ++ [cp ++ [n]])) := by
  have hcl : classify_entry (lookupEntry lhs n) = .Tree a m1 := by
    rw [hl]; simp [classify_entry, ta]
  have hcr : classify_entry (lookupEntry rhs n) = .Tree b m2 := by
    rw [hr]; simp [classify_entry, tb]
  refine ⟨?_, ?_, ?_, ?_⟩
  · intro hab hm
    subst hab; subst hm
    rw [diffOne]
    split <;> simp_all [Oid.beq_iff_eq]
  · intro hab hm
    subst hab
    rw [diffOne]
    split <;> simp_all [Oid.beq_iff_eq]
  · intro hab hm A B hA hB
    subst hm
    refine ⟨?_, fun l h => diffTrees_self_path_not_mem h⟩
    rw [diffOne]
    split <;> simp_all [Oid.beq_iff_eq]
    split <;> simp_all
    split <;> simp_all
  · intro hab hm A B hA hB
    rw [diffOne]
    split <;> simp_all [Oid.beq_iff_eq]
    split <;> simp_all
    split <;> simp_all
    split <;> simp_all [Except.map]

/-- Concrete instances of the four cells of the Tree/Tree decision table
(the first two with an unresolvable subtree id, witnessing the
short-circuit). -/
theorem tree_tree_decision_witness :
    diffOne [] [("d", .blob 5, 16384)] [("d", .blob 5, 16384)] "d" = .ok [] ∧
    diffOne [] [("d", .blob 5, 16384)] [("d", .blob 5, 16385)] "d" =
      .ok [["d"]] ∧
    diffOne [] [("d", .tree [], 16384)]
      [("d", .tree [("x", .blob 1, 33188)], 16384)] "d" =
      diffTrees ["d"] [] [("x", .blob 1, 33188)] ∧
    diffOne [] [("d", .tree [], 16384)]
      [("d", .tree [("x", .blob 1, 33188)], 16385)] "d" =
      (diffTrees ["d"] [] [("x", .blob 1, 33188)]).map
        (fun inner => inner ++ [["d"]]) := by
  refine ⟨?_, ?_, ?_, ?_⟩
  · exact (tree_tree_decision [] [("d", .blob 5, 16384)]
      [("d", .blob 5, 16384)] "d" (.blob 5) (.blob 5) 16384 16384
      rfl rfl rfl rfl).1 rfl rfl
  · exact (tree_tree_decision [] [("d", .blob 5, 16384)]
      [("d", .blob 5, 16385)] "d" (.blob 5) (.blob 5) 16384 16385
      rfl rfl rfl rfl).2.1 rfl (by decide)
  · exact ((tree_tree_decision [] [("d", .tree [], 16384)]
      [("d", .tree [("x", .blob 1, 33188)], 16384)] "d" (.tree [])
      (.tree [("x", .blob 1, 33188)]) 16384 16384 rfl rfl rfl rfl).2.2.1
      (by simp) rfl _ _ rfl rfl).1
  · exact (tree_tree_decision [] [("d", .tree [], 16384)]
      [("d", .tree [("x", .blob 1, 33188)], 16385)] "d" (.tree [])
      (.tree [("x", .blob 1, 33188)]) 16384 16385 rfl rfl rfl rfl).2.2.2
      (by simp) (by decide) _ _ rfl rfl

/-- **C7**: a failed store lookup of a referenced subtree id is propagated
as-is: the per-name step returns exactly the store's error, any erroring
name makes the whole entry loop return an error instead of a partial path
list, and the public entry point then surfaces the error with no
changed-path set. -/
theorem diff_lookup_failed_aborts :
    (∀ (cp : List String) (lhs rhs : Tree) (n : String) (a : Oid)
      (m : Nat) (e : GitError),
      lookupEntry lhs n = some (n, a, m) → filemode_is_tree m = true →
      lookupEntry rhs n = none → find_tree a = .error e →
      diffOne cp lhs rhs n = .error e) ∧
    (∀ (cp : List String) (lhs rhs : Tree) (ns : List String) (n : String)
      (e : GitError), n ∈ ns → diffOne cp lhs rhs n = .error e →
      ∃ e', diffNames cp lhs rhs ns = .error e') ∧
    (∀ (lhs rhs : Option Tree) (e : GitError),
      diffTrees [] (lhs.getD []) (rhs.getD []) = .error e →
      get_changed_paths_between_trees lhs rhs = .error e) := by
  refine ⟨?_, ?_, ?_⟩
  · intro cp lhs rhs n a m e hl ht hr hf
    have hcl : classify_entry (lookupEntry lhs n) = .Tree a m := by
      rw [hl]; simp [classify_entry, ht]
    have hcr : classify_entry (lookupEntry rhs n) = .Absent := by
      rw [hr]; rfl
    rw [diffOne]
    split <;> simp_all
    split <;> simp_all
  · intro cp lhs rhs ns n e hmem herr
    induction ns with
    | nil => simp at hmem
    | cons m rest ih =>
      rw [diffNames_cons]
      cases h1 : diffOne cp lhs rhs m with
      | error e1 => exact ⟨e1, rfl⟩
      | ok l1 =>
        rcases List.mem_cons.mp hmem with hnm | hnm
        · subst hnm
          rw [h1] at herr
          exact absurd herr (by simp)
        · obtain ⟨e', he'⟩ := ih hnm
          rw [he']
          exact ⟨e', rfl⟩
  · intro lhs rhs e h
    rw [get_changed_paths_between_trees, h]
    rfl

/-- Concrete instance: an unresolvable subtree id aborts the diff with
`LookupFailed`, even though a sibling entry has changes that would
otherwise be reported. -/
theorem diff_lookup_failed_aborts_witness :
    diffOne [] [("d", .blob 7, 16384)] [] "d" =
      .error (.LookupFailed (.blob 7)) ∧
    (∃ e', diffNames [] [("d", .blob 7, 16384), ("x", .blob 1, 33188)] []
      ["d", "x"] = .error e') ∧
    get_changed_paths_between_trees (some [("d", .blob 7, 16384)]) none =
      .error (.LookupFailed (.blob 7)) := by
  refine ⟨?_, ?_, ?_⟩
  · exact diff_lookup_failed_aborts.1 [] [("d", .blob 7, 16384)] [] "d"
      (.blob 7) 16384 (.LookupFailed (.blob 7)) rfl rfl rfl rfl
  · exact diff_lookup_failed_aborts.2.1 []
      [("d", .blob 7, 16384), ("x", .blob 1, 33188)] [] ["d", "x"] "d"
      (.LookupFailed (.blob 7)) (by simp)
      (diff_lookup_failed_aborts.1 []
        [("d", .blob 7, 16384), ("x", .blob 1, 33188)] [] "d"
        (.blob 7) 16384 (.LookupFailed (.blob 7)) rfl rfl rfl rfl)
  · refine diff_lookup_failed_aborts.2.2 (some [("d", .blob 7, 16384)]) none
      (.LookupFailed (.blob 7)) ?_
    simp [diffTrees_eq, unionNames, treeNames, dedupNames, diffNames_cons,
      diffNames_nil]
    rw [show diffOne [] [("d", .blob 7, 16384)] [] "d" =
      .error (.LookupFailed (.blob 7)) from
      diff_lookup_failed_aborts.1 [] [("d", .blob 7, 16384)] [] "d"
        (.blob 7) 16384 (.LookupFailed (.blob 7)) rfl rfl rfl rfl]

/-! ### Well-formed trees and their leaf paths -/

/-- The paths of the non-tree entries of a tree, recursively: exactly the
paths a diff against the absent tree reports. -/
def leafPaths : Tree → List (List String)
  | [] => []
  | (n, id, m) :: rest =>
    (if filemode_is_tree m then
       match id with
       | .tree sub => (leafPaths sub).map (fun q => n :: q)
       | .blob _ => []
     else [[n]]) ++ leafPaths rest
termination_by t => sizeOf t
decreasing_by
  all_goals (simp_wf; try omega)

/-- Well-formedness of a (git) tree: entry names are distinct, subtree
ids resolve to (well-formed) trees and carry exactly the
`FileMode::Tree` mode, and non-tree ids carry a non-tree mode. -/
def wfTree : Tree → Bool
  | [] => true
  | (n, id, m) :: rest =>
    (match id with
     | .tree sub => m == treeFileMode && wfTree sub
     | .blob _ => !filemode_is_tree m)
    && rest.all (fun e => !(e.1 == n)) && wfTree rest
termination_by t => sizeOf t
decreasing_by
  all_goals (simp_wf; try omega)

theorem filemode_is_tree_treeFileMode : filemode_is_tree treeFileMode = true :=
  rfl

theorem wfTree_nil : wfTree [] = true := by rw [wfTree]

theorem wfTree_cons {n : String} {id : Oid} {m : Nat} {rest : Tree}
    (h : wfTree ((n, id, m) :: rest) = true) :
    (∀ sub, id = .tree sub → m = treeFileMode ∧ wfTree sub = true) ∧
    (∀ b, id = .blob b → filemode_is_tree m = false) ∧
    (n ∉ treeNames rest) ∧ wfTree rest = true := by
  rw [wfTree.eq_def] at h
  simp only [Bool.and_eq_true, List.all_eq_true] at h
  obtain ⟨⟨h1, h2⟩, h3⟩ := h
  refine ⟨?_, ?_, ?_, h3⟩
  · intro sub hid
    subst hid
    simpa using h1
  · intro b hid
    subst hid
    simpa using h1
  · intro hc
    simp only [treeNames, List.mem_map] at hc
    obtain ⟨e, he, hen⟩ := hc
    have := h2 e he
    simp [hen] at this

theorem lookupEntry_eq_none_of_not_mem {t : Tree} {n : String}
    (h : n ∉ treeNames t) : lookupEntry t n = none := by
  induction t with
  | nil => rfl
  | cons e rest ih =>
    simp only [treeNames, List.map_cons, List.mem_cons, not_or] at h
    rw [lookupEntry, ih (by simpa [treeNames] using h.2)]
    show (if e.1 = n then some e else none) = none
    exact if_neg (fun hc => h.1 hc.symm)

theorem wf_lookupEntry {t : Tree} (hwf : wfTree t = true) {e : TreeEntry}
    (he : e ∈ t) : lookupEntry t e.1 = some e := by
  induction t with
  | nil => simp at he
  | cons hd rest ih =>
    obtain ⟨n, id, m⟩ := hd
    obtain ⟨-, -, hnames, hrest⟩ := wfTree_cons hwf
    rcases List.mem_cons.mp he with rfl | he'
    · rw [lookupEntry, lookupEntry_eq_none_of_not_mem hnames]
      simp
    · rw [lookupEntry, ih hrest he']

theorem wf_entry_tree {t : Tree} (hwf : wfTree t = true) {n : String}
    {sub : Tree} {m : Nat} (he : (n, .tree sub, m) ∈ t) :
    m = treeFileMode ∧ wfTree sub = true := by
  induction t with
  | nil => simp at he
  | cons hd rest ih =>
    obtain ⟨n', id', m'⟩ := hd
    obtain ⟨h1, -, -, hrest⟩ := wfTree_cons hwf
    rcases List.mem_cons.mp he with heq | he'
    · injection heq with e1 e2
      injection e2 with e2 e3
      subst e1; subst e3
      exact h1 sub e2.symm
    · exact ih hrest he'

theorem wf_entry_blob {t : Tree} (hwf : wfTree t = true) {n : String}
    {b : Nat} {m : Nat} (he : (n, .blob b, m) ∈ t) :
    filemode_is_tree m = false := by
  induction t with
  | nil => simp at he
  | cons hd rest ih =>
    obtain ⟨n', id', m'⟩ := hd
    obtain ⟨-, h2, -, hrest⟩ := wfTree_cons hwf
    rcases List.mem_cons.mp he with heq | he'
    · injection heq with e1 e2
      injection e2 with e2 e3
      subst e3
      exact h2 b e2.symm
    · exact ih hrest he'

theorem wf_names_nodup {t : Tree} (hwf : wfTree t = true) :
    (treeNames t).Nodup := by
  induction t with
  | nil => simp [treeNames]
  | cons hd rest ih =>
    obtain ⟨n, id, m⟩ := hd
    obtain ⟨-, -, hnames, hrest⟩ := wfTree_cons hwf
    simp only [treeNames, List.map_cons, List.nodup_cons]
    exact ⟨by simpa [treeNames] using hnames,
      by simpa [treeNames] using ih hrest⟩

theorem dedupNames_of_nodup : ∀ {l : List String}, l.Nodup → dedupNames l = l
  | [], _ => by rw [dedupNames]
  | n :: rest, h => by
    rw [dedupNames]
    obtain ⟨hn, hrest⟩ := List.nodup_cons.mp h
    rw [List.filter_eq_self.mpr, dedupNames_of_nodup hrest]
    intro a ha
    exact decide_eq_true (fun hc : a = n => hn (hc ▸ ha))

theorem leafPaths_nil : leafPaths [] = [] := by rw [leafPaths]

theorem leafPaths_cons (n : String) (id : Oid) (m : Nat) (rest : Tree) :
    leafPaths ((n, id, m) :: rest) =
      (if filemode_is_tree m then
         match id with
         | .tree sub => (leafPaths sub).map (fun q => n :: q)
         | .blob _ => []
       else [[n]]) ++ leafPaths rest := by
  rw [leafPaths.eq_def]

/-! ### One-sided steps of the diff (entry present on one side only) -/

theorem diffOne_notatree_absent {lhs rhs : Tree} {n : String} {id : Oid}
    {m : Nat} (cp : List String) (hl : lookupEntry lhs n = some (n, id, m))
    (hm : filemode_is_tree m = false) (hr : lookupEntry rhs n = none) :
    diffOne cp lhs rhs n = .ok [cp ++ [n]] := by
  have hcl : classify_entry (lookupEntry lhs n) = .NotATree id m := by
    rw [hl]; simp [classify_entry, hm]
  have hcr : classify_entry (lookupEntry rhs n) = .Absent := by
    rw [hr]; rfl
  rw [diffOne]
  split <;> simp_all

theorem diffOne_absent_notatree {lhs rhs : Tree} {n : String} {id : Oid}
    {m : Nat} (cp : List String) (hl : lookupEntry lhs n = none)
    (hr : lookupEntry rhs n = some (n, id, m))
    (hm : filemode_is_tree m = false) :
    diffOne cp lhs rhs n = .ok [cp ++ [n]] := by
  have hcl : classify_entry (lookupEntry lhs n) = .Absent := by
    rw [hl]; rfl
  have hcr : classify_entry (lookupEntry rhs n) = .NotATree id m := by
    rw [hr]; simp [classify_entry, hm]
  rw [diffOne]
  split <;> simp_all

theorem diffOne_tree_absent {lhs rhs : Tree} {n : String} {id : Oid}
    {m : Nat} {sub : Tree} (cp : List String)
    (hl : lookupEntry lhs n = some (n, id, m))
    (hm : filemode_is_tree m = true) (hr : lookupEntry rhs n = none)
    (hs : find_tree id = .ok sub) :
    diffOne cp lhs rhs n = diffTrees (cp ++ [n]) sub [] := by
  have hcl : classify_entry (lookupEntry lhs n) = .Tree id m := by
    rw [hl]; simp [classify_entry, hm]
  have hcr : classify_entry (lookupEntry rhs n) = .Absent := by
    rw [hr]; rfl
  rw [diffOne]
  split <;> simp_all
  split <;> simp_all

theorem diffOne_absent_tree {lhs rhs : Tree} {n : String} {id : Oid}
    {m : Nat} {sub : Tree} (cp : List String)
    (hl : lookupEntry lhs n = none)
    (hr : lookupEntry rhs n = some (n, id, m))
    (hm : filemode_is_tree m = true) (hs : find_tree id = .ok sub) :
    diffOne cp lhs rhs n = diffTrees (cp ++ [n]) sub [] := by
  have hcl : classify_entry (lookupEntry lhs n) = .Absent := by
    rw [hl]; rfl
  have hcr : classify_entry (lookupEntry rhs n) = .Tree id m := by
    rw [hr]; simp [classify_entry, hm]
  rw [diffOne]
  split <;> simp_all
  split <;> simp_all

/-- Diffing a well-formed tree against the absent tree (in either
direction) reports exactly its leaf paths, each below the current path. -/
theorem diffTrees_vs_absent :
    ∀ N : Nat, ∀ t : Tree, sizeOf t ≤ N → wfTree t = true →
      ∀ cp : List String,
      diffTrees cp t [] = .ok ((leafPaths t).map (fun q => cp ++ q)) ∧
      diffTrees cp [] t = .ok ((leafPaths t).map (fun q => cp ++ q)) := by
  intro N
  induction N using Nat.strong_induction_on with
  | _ N IH =>
  intro t hsz hwf cp
  have aux : ∀ t' : Tree,
      (∀ e, e ∈ t' → lookupEntry t e.1 = some e) →
      (∀ n sub m, (n, .tree sub, m) ∈ t' →
        m = treeFileMode ∧ wfTree sub = true) →
      (∀ n b m, (n, .blob b, m) ∈ t' → filemode_is_tree m = false) →
      diffNames cp t [] (treeNames t') =
        .ok ((leafPaths t').map (fun q => cp ++ q)) ∧
      diffNames cp [] t (treeNames t') =
        .ok ((leafPaths t').map (fun q => cp ++ q)) := by
    intro t'
    induction t' with
    | nil =>
      intro _ _ _
      simp [treeNames, diffNames_nil, leafPaths_nil]
    | cons e rest ihr =>
      intro h1 h2 h3
      obtain ⟨n, id, m⟩ := e
      have hlook : lookupEntry t n = some (n, id, m) :=
        h1 (n, id, m) (List.mem_cons_self _ _)
      obtain ⟨ihr1, ihr2⟩ := ihr
        (fun e he => h1 e (List.mem_cons_of_mem _ he))
        (fun n' sub m' he => h2 n' sub m' (List.mem_cons_of_mem _ he))
        (fun n' b m' he => h3 n' b m' (List.mem_cons_of_mem _ he))
      have hnames : treeNames ((n, id, m) :: rest) = n :: treeNames rest := rfl
      cases id with
      | blob b =>
        have hm : filemode_is_tree m = false :=
          h3 n b m (List.mem_cons_self _ _)
        constructor
        · rw [hnames, diffNames_cons,
            diffOne_notatree_absent cp hlook hm (lookupEntry_nil n), ihr1,
            leafPaths_cons]
          simp [hm]
        · rw [hnames, diffNames_cons,
            diffOne_absent_notatree cp (lookupEntry_nil n) hlook hm, ihr2,
            leafPaths_cons]
          simp [hm]
      | tree sub =>
        obtain ⟨hmode, hwfsub⟩ := h2 n sub m (List.mem_cons_self _ _)
        have hm : filemode_is_tree m = true := by
          rw [hmode]; exact filemode_is_tree_treeFileMode
        have hsize : sizeOf sub < N := by
          have hmem := lookupEntry_mem hlook
          have := List.sizeOf_lt_of_mem hmem
          simp only [Prod.mk.sizeOf_spec, Oid.tree.sizeOf_spec] at this
          omega
        have hrec := (IH (sizeOf sub) hsize sub le_rfl hwfsub (cp ++ [n])).1
        have hcontrib : ((leafPaths sub).map (fun q => n :: q)).map
            (fun q => cp ++ q) =
            (leafPaths sub).map (fun q => (cp ++ [n]) ++ q) := by
          rw [List.map_map]
          exact List.map_congr_left (fun q _ => by simp)
        constructor
        · rw [hnames, diffNames_cons,
            diffOne_tree_absent cp hlook hm (lookupEntry_nil n) rfl, hrec,
            ihr1, leafPaths_cons]
          simp only [hm, if_pos, List.map_append, hcontrib]
        · rw [hnames, diffNames_cons,
            diffOne_absent_tree cp (lookupEntry_nil n) hlook hm rfl, hrec,
            ihr2, leafPaths_cons]
          simp only [hm, if_pos, List.map_append, hcontrib]
  have hnod := wf_names_nodup hwf
  have hun1 : unionNames t [] = treeNames t := by
    rw [unionNames]
    simp only [treeNames, List.map_nil, List.append_nil]
    exact dedupNames_of_nodup hnod
  have hun2 : unionNames [] t = treeNames t := by
    rw [unionNames]
    simp only [treeNames, List.map_nil, List.nil_append]
    exact dedupNames_of_nodup hnod
  obtain ⟨a1, a2⟩ := aux t (fun e he => wf_lookupEntry hwf he)
    (fun n sub m he => wf_entry_tree hwf he)
    (fun n b m he => wf_entry_blob hwf he)
  exact ⟨by rw [diffTrees_eq, hun1]; exact a1,
    by rw [diffTrees_eq, hun2]; exact a2⟩

theorem leafPaths_mem_ne_nil :
    ∀ (t : Tree) (q : List String), q ∈ leafPaths t → q ≠ []
  | [], q, hq => by rw [leafPaths_nil] at hq; simp at hq
  | (n, id, m) :: rest, q, hq => by
    rw [leafPaths_cons] at hq
    rcases List.mem_append.mp hq with h1 | h2
    · by_cases hm : filemode_is_tree m
      · rw [if_pos hm] at h1
        cases id with
        | tree sub =>
          obtain ⟨q', -, hq'⟩ := List.mem_map.mp h1
          subst hq'
          simp
        | blob b => simp at h1
      · rw [if_neg hm] at h1
        simp only [List.mem_singleton] at h1
        subst h1
        simp
    · exact leafPaths_mem_ne_nil rest q h2

theorem diffOne_notatree_tree {lhs rhs : Tree} {n : String} {id' id : Oid}
    {m' m : Nat} {sub : Tree} (cp : List String)
    (hl : lookupEntry lhs n = some (n, id', m'))
    (hmf : filemode_is_tree m' = false)
    (hr : lookupEntry rhs n = some (n, id, m))
    (hm : filemode_is_tree m = true) (hs : find_tree id = .ok sub) :
    diffOne cp lhs rhs n =
      match diffTrees (cp ++ [n]) sub [] with
      | .error e => .error e
      | .ok inner => .ok (inner ++ [cp ++ [n]]) := by
  have hcl : classify_entry (lookupEntry lhs n) = .NotATree id' m' := by
    rw [hl]; simp [classify_entry, hmf]
  have hcr : classify_entry (lookupEntry rhs n) = .Tree id m := by
    rw [hr]; simp [classify_entry, hm]
  rw [diffOne]
  split <;> simp_all
  split <;> simp_all

theorem diffOne_tree_notatree {lhs rhs : Tree} {n : String} {id id' : Oid}
    {m m' : Nat} {sub : Tree} (cp : List String)
    (hl : lookupEntry lhs n = some (n, id, m))
    (hm : filemode_is_tree m = true)
    (hr : lookupEntry rhs n = some (n, id', m'))
    (hmf : filemode_is_tree m' = false) (hs : find_tree id = .ok sub) :
    diffOne cp lhs rhs n =
      match diffTrees (cp ++ [n]) sub [] with
      | .error e => .error e
      | .ok inner => .ok (inner ++ [cp ++ [n]]) := by
  have hcl : classify_entry (lookupEntry lhs n) = .Tree id m := by
    rw [hl]; simp [classify_entry, hm]
  have hcr : classify_entry (lookupEntry rhs n) = .NotATree id' m' := by
    rw [hr]; simp [classify_entry, hmf]
  rw [diffOne]
  split <;> simp_all
  split <;> simp_all

/-- **C2**: for a subtree entry present on exactly one side, the per-name
decision recurses into the subtree against the absent tree and reports
exactly the subtree's leaf paths — every path inside, but not the
directory's own path; for a non-tree entry against a subtree entry (in
either direction) it reports the subtree's leaf paths and additionally
the entry's own path. -/
theorem one_sided_decision (cp : List String) (lhs rhs : Tree) (n : String)
    (sub : Tree) (m : Nat) (hm : filemode_is_tree m = true)
    (hwf : wfTree sub = true) :
    (lookupEntry lhs n = none → lookupEntry rhs n = some (n, .tree sub, m) →
      diffOne cp lhs rhs n =
        .ok ((leafPaths sub).map (fun q => (cp ++ [n]) ++ q)) ∧
      (cp ++ [n]) ∉ (leafPaths sub).map (fun q => (cp ++ [n]) ++ q)) ∧
    (lookupEntry lhs n = some (n, .tree sub, m) → lookupEntry rhs n = none →
      diffOne cp lhs rhs n =
        .ok ((leafPaths sub).map (fun q => (cp ++ [n]) ++ q)) ∧
      (cp ++ [n]) ∉ (leafPaths sub).map (fun q => (cp ++ [n]) ++ q)) ∧
    (∀ id' m', lookupEntry lhs n = some (n, id', m') →
      filemode_is_tree m' = false →
      lookupEntry rhs n = some (n, .tree sub, m) →
      diffOne cp lhs rhs n =
        .ok ((leafPaths sub).map (fun q => (cp ++ [n]) ++ q) ++ [cp ++ [n]])) ∧
    (∀ id' m', lookupEntry lhs n = some (n, .tree sub, m) →
      lookupEntry rhs n = some (n, id', m') →
      filemode_is_tree m' = false →
      diffOne cp lhs rhs n =
        .ok ((leafPaths sub).map (fun q => (cp ++ [n]) ++ q) ++ [cp ++ [n]])) := by
  have hva := (diffTrees_vs_absent (sizeOf sub) sub le_rfl hwf (cp ++ [n])).1
  have hnotmem : (cp ++ [n]) ∉ (leafPaths sub).map (fun q => (cp ++ [n]) ++ q) := by
    intro hc
    obtain ⟨q, hq, he⟩ := List.mem_map.mp hc
    have hqnil : q = [] := by
      have hlen := congrArg List.length he
      simpa using hlen
    exact leafPaths_mem_ne_nil sub q hq hqnil
  refine ⟨?_, ?_, ?_, ?_⟩
  · intro hl hr
    exact ⟨by rw [diffOne_absent_tree cp hl hr hm rfl]; exact hva, hnotmem⟩
  · intro hl hr
    exact ⟨by rw [diffOne_tree_absent cp hl hm hr rfl]; exact hva, hnotmem⟩
  · intro id' m' hl hmf hr
    rw [diffOne_notatree_tree cp hl hmf hr hm rfl, hva]
  · intro id' m' hl hr hmf
    rw [diffOne_tree_notatree cp hl hm hr hmf rfl, hva]

/-- Concrete instances of the one-sided decisions: directory added,
directory removed, file-to-directory change in both directions. -/
theorem one_sided_decision_witness :
    diffOne [] [] [("d", .tree [("f", .blob 1, 33188)], 16384)] "d" =
      .ok [["d", "f"]] ∧
    diffOne [] [("d", .tree [("f", .blob 1, 33188)], 16384)] [] "d" =
      .ok [["d", "f"]] ∧
    diffOne [] [("d", .blob 9, 33188)]
      [("d", .tree [("f", .blob 1, 33188)], 16384)] "d" =
      .ok [["d", "f"], ["d"]] ∧
    diffOne [] [("d", .tree [("f", .blob 1, 33188)], 16384)]
      [("d", .blob 9, 33188)] "d" = .ok [["d", "f"], ["d"]] := by
  have hwf : wfTree [("f", .blob 1, 33188)] = true := by
    rw [wfTree.eq_def]
    simp [wfTree_nil, filemode_is_tree_blobMode]
  have hlp : (leafPaths [("f", .blob 1, 33188)]).map
      (fun q => (([] : List String) ++ ["d"]) ++ q) = [["d", "f"]] := by
    rw [leafPaths_cons, leafPaths_nil, filemode_is_tree_blobMode]
    rfl
  have h := one_sided_decision [] [] [("d", .tree [("f", .blob 1, 33188)], 16384)]
    "d" [("f", .blob 1, 33188)] 16384 rfl hwf
  have h2 := one_sided_decision [] [("d", .tree [("f", .blob 1, 33188)], 16384)]
    [] "d" [("f", .blob 1, 33188)] 16384 rfl hwf
  have h3 := one_sided_decision [] [("d", .blob 9, 33188)]
    [("d", .tree [("f", .blob 1, 33188)], 16384)] "d"
    [("f", .blob 1, 33188)] 16384 rfl hwf
  have h4 := one_sided_decision [] [("d", .tree [("f", .blob 1, 33188)], 16384)]
    [("d", .blob 9, 33188)] "d" [("f", .blob 1, 33188)] 16384 rfl hwf
  refine ⟨?_, ?_, ?_, ?_⟩
  · rw [(h.1 rfl rfl).1]
    simp [leafPaths_cons, leafPaths_nil, filemode_is_tree_blobMode]
  · rw [(h2.2.1 rfl rfl).1]
    simp [leafPaths_cons, leafPaths_nil, filemode_is_tree_blobMode]
  · rw [h3.2.2.1 (.blob 9) 33188 rfl rfl rfl]
    simp [leafPaths_cons, leafPaths_nil, filemode_is_tree_blobMode]
  · rw [h4.2.2.2 (.blob 9) 33188 rfl rfl rfl]
    simp [leafPaths_cons, leafPaths_nil, filemode_is_tree_blobMode]

/-! ### Basic equations of the rebuild engine -/

theorem rebuildDirs_nil (b : Tree) : rebuildDirs b [] = .ok b := by
  rw [rebuildDirs]

theorem rebuild_tree_ok_shape {base : Option Tree} {entries : EditMap}
    {r : Oid} (h : rebuild_tree base entries = .ok r) : ∃ t, r = .tree t := by
  rw [rebuild_tree] at h
  split at h
  · exact absurd h (by simp)
  · injection h with h
    exact ⟨_, h.symm⟩

/-- **C8**: a single-component `None` edit removes the named entry when
present and is a successful no-op when absent: the rebuild always
succeeds, the named entry is gone from the result, every other name is
untouched, and an absent name leaves the builder exactly as seeded. -/
theorem delete_single_component (base : Option Tree) (n : String) :
    rebuild_tree base [([n], none)] =
      .ok (.tree (remove_entry_if_exists (base.getD []) n)) ∧
    lookupEntry (remove_entry_if_exists (base.getD []) n) n = none ∧
    (∀ m, m ≠ n → lookupEntry (remove_entry_if_exists (base.getD []) n) m =
      lookupEntry (base.getD []) m) ∧
    (lookupEntry (base.getD []) n = none →
      remove_entry_if_exists (base.getD []) n = base.getD []) := by
  refine ⟨?_, lookupEntry_removeIfExists_self _ n,
    fun m hm => lookupEntry_removeIfExists_other _ hm, fun hnone => ?_⟩
  · rw [rebuild_tree]
    simp only [partitionEdits, insertAssoc, List.foldl_cons, List.foldl_nil,
      applyFileEdit]
    rw [rebuildDirs_nil]
  · rw [remove_entry_if_exists, hnone]

/-- Concrete instance of C8: deleting an absent name succeeds and leaves
the tree unchanged; deleting a present name removes exactly it. -/
theorem delete_single_component_witness :
    rebuild_tree (some [("a", .blob 1, 33188)]) [(["b"], none)] =
      .ok (.tree [("a", .blob 1, 33188)]) ∧
    rebuild_tree (some [("a", .blob 1, 33188)]) [(["a"], none)] =
      .ok (.tree []) ∧
    lookupEntry (remove_entry_if_exists [("a", .blob 1, 33188)] "b") "a" =
      lookupEntry [("a", .blob 1, 33188)] "a" := by
  have h1 := delete_single_component (some [("a", .blob 1, 33188)]) "b"
  have h2 := delete_single_component (some [("a", .blob 1, 33188)]) "a"
  simp only [Option.getD_some] at h1 h2
  refine ⟨?_, ?_, ?_⟩
  · rw [h1.1]
    rw [show remove_entry_if_exists [("a", .blob 1, 33188)] "b" =
      [("a", .blob 1, 33188)] from h1.2.2.2 rfl]
  · rw [h2.1]
    rw [show remove_entry_if_exists [("a", .blob 1, 33188)] "a" = [] from by
      rw [remove_entry_if_exists]
      simp [lookupEntry, removeEntry, List.filter]]
  · exact h1.2.2.1 "a" (by decide)

/-- A pure deletion applied against the empty base always rebuilds the
empty tree (the recursion discards all absent paths). -/
theorem rebuild_none_delete : ∀ (r : List String),
    rebuild_tree none [(r, none)] = .ok (.tree [])
  | [] => by
    rw [rebuild_tree]
    simp only [partitionEdits]
    rw [rebuildDirs_nil]
    rfl
  | [f] => by
    rw [rebuild_tree]
    simp only [partitionEdits, insertAssoc, List.foldl_cons, List.foldl_nil]
    rw [rebuildDirs_nil]
    rfl
  | f :: g :: r => by
    rw [rebuild_tree]
    simp only [partitionEdits, insertAssoc, lookupAssoc, Option.getD_none,
      List.foldl_nil]
    rw [rebuildDirs]
    simp only [builderExistingTree, lookupEntry]
    rw [rebuild_none_delete (g :: r)]
    simp only [find_tree, List.isEmpty_nil, if_pos]
    rw [remove_entry_if_exists]
    simp only [lookupEntry]
    rw [rebuildDirs_nil]


/-- **C9**: deleting a path nested under an existing non-tree (file)
entry `n` removes the stale file entry entirely: the recursive rebuild
runs against the empty base, yields the empty subtree, and the pruning
step removes `n` from the parent; all other names are untouched. -/
theorem delete_under_file_entry (base : Tree) (n : String)
    (rest : List String) (id : Oid) (m : Nat)
    (hip : lookupEntry base n = some (n, id, m))
    (hm : filemode_is_tree m = false) (hrest : rest ≠ []) :
    ∃ b', rebuild_tree (some base) [(n :: rest, none)] = .ok (.tree b') ∧
      lookupEntry b' n = none ∧
      (∀ k, k ≠ n → lookupEntry b' k = lookupEntry base k) := by
  obtain ⟨g, r, rfl⟩ := List.exists_cons_of_ne_nil hrest
  refine ⟨remove_entry_if_exists base n, ?_,
    lookupEntry_removeIfExists_self base n,
    fun k hk => lookupEntry_removeIfExists_other base hk⟩
  rw [rebuild_tree]
  simp only [partitionEdits, insertAssoc, lookupAssoc, Option.getD_none,
    Option.getD_some, List.foldl_nil]
  rw [rebuildDirs]
  rw [builderExistingTree, hip]
  simp only [hm, Bool.and_false, Bool.false_eq_true, if_false]
  rw [rebuild_none_delete (g :: r)]
  simp only [find_tree, List.isEmpty_nil, if_pos]
  rw [rebuildDirs_nil]

/-- Concrete instance of C9: `{n/p: None}` against a base where `n` is a
file removes the entry `n` and keeps its sibling. -/
theorem delete_under_file_entry_witness :
    ∃ b', rebuild_tree (some [("n", .blob 5, 33188), ("x", .blob 1, 33188)])
        [(["n", "p"], none)] = .ok (.tree b') ∧
      lookupEntry b' "n" = none ∧
      lookupEntry b' "x" = some ("x", .blob 1, 33188) := by
  obtain ⟨b', h1, h2, h3⟩ := delete_under_file_entry
    [("n", .blob 5, 33188), ("x", .blob 1, 33188)] "n" ["p"] (.blob 5) 33188
    rfl rfl (by simp)
  refine ⟨b', h1, h2, ?_⟩
  rw [h3 "x" (by decide)]
  rfl


/-! ### Frame lemmas: names not edited are untouched -/

/-- The first components of the paths of an edit map. -/
def editFirsts (em : EditMap) : List String :=
  em.filterMap (fun e => e.1.head?)

theorem mem_insertAssoc {α β : Type} [DecidableEq α] {k : α} {v : β} :
    ∀ {l : List (α × β)} {p : α × β},
      p ∈ insertAssoc k v l → p = (k, v) ∨ p ∈ l
  | [], p, h => by
    rw [insertAssoc] at h
    simp only [List.mem_singleton] at h
    exact Or.inl h
  | (k', v') :: rest, p, h => by
    rw [insertAssoc] at h
    by_cases hk : k' = k
    · rw [if_pos hk] at h
      rcases List.mem_cons.mp h with h1 | h1
      · exact Or.inl h1
      · exact Or.inr (List.mem_cons_of_mem _ h1)
    · rw [if_neg hk] at h
      rcases List.mem_cons.mp h with h1 | h1
      · exact Or.inr (h1 ▸ List.mem_cons_self _ _)
      · rcases mem_insertAssoc h1 with h2 | h2
        · exact Or.inl h2
        · exact Or.inr (List.mem_cons_of_mem _ h2)

theorem partition_file_key :
    ∀ {em : EditMap} {p : String × Option (Oid × Nat)},
      p ∈ (partitionEdits em).1 → p.1 ∈ editFirsts em
  | [], p, h => by simp [partitionEdits] at h
  | ([], v) :: rest, p, h => by
    rw [show (partitionEdits (([], v) :: rest)).1 = (partitionEdits rest).1
      from rfl] at h
    simp only [editFirsts, List.filterMap_cons, List.head?]
    exact partition_file_key h
  | ([f], v) :: rest, p, h => by
    rw [show (partitionEdits (([f], v) :: rest)).1 =
      insertAssoc f v (partitionEdits rest).1 from rfl] at h
    simp only [editFirsts, List.filterMap_cons, List.head?, List.mem_cons]
    rcases mem_insertAssoc h with h1 | h1
    · exact Or.inl (by rw [h1])
    · exact Or.inr (partition_file_key h1)
  | (f :: g :: r, v) :: rest, p, h => by
    rw [show (partitionEdits ((f :: g :: r, v) :: rest)).1 =
      (partitionEdits rest).1 from rfl] at h
    simp only [editFirsts, List.filterMap_cons, List.head?, List.mem_cons]
    exact Or.inr (partition_file_key h)

theorem partition_dir_key :
    ∀ {em : EditMap} {p : String × EditMap},
      p ∈ (partitionEdits em).2 → p.1 ∈ editFirsts em
  | [], p, h => by simp [partitionEdits] at h
  | ([], v) :: rest, p, h => by
    rw [show (partitionEdits (([], v) :: rest)).2 = (partitionEdits rest).2
      from rfl] at h
    simp only [editFirsts, List.filterMap_cons, List.head?]
    exact partition_dir_key h
  | ([f], v) :: rest, p, h => by
    rw [show (partitionEdits (([f], v) :: rest)).2 = (partitionEdits rest).2
      from rfl] at h
    simp only [editFirsts, List.filterMap_cons, List.head?, List.mem_cons]
    exact Or.inr (partition_dir_key h)
  | (f :: g :: r, v) :: rest, p, h => by
    rw [show (partitionEdits ((f :: g :: r, v) :: rest)).2 =
      insertAssoc f (insertAssoc (g :: r) v
        ((lookupAssoc f (partitionEdits rest).2).getD []))
        (partitionEdits rest).2 from rfl] at h
    simp only [editFirsts, List.filterMap_cons, List.head?, List.mem_cons]
    rcases mem_insertAssoc h with h1 | h1
    · exact Or.inl (by rw [h1])
    · exact Or.inr (partition_dir_key h1)

theorem filesFold_frame :
    ∀ (files : List (String × Option (Oid × Nat))) (b : Tree) (e : TreeEntry),
      e ∈ b → (∀ fe ∈ files, fe.1 ≠ e.1) →
      e ∈ files.foldl applyFileEdit b
  | [], b, e, he, _ => he
  | fe :: rest, b, e, he, hn => by
    rw [List.foldl_cons]
    refine filesFold_frame rest _ e ?_
      (fun fe' hfe' => hn fe' (List.mem_cons_of_mem _ hfe'))
    have hne : e.1 ≠ fe.1 := fun hc => hn fe (List.mem_cons_self _ _) hc.symm
    rw [applyFileEdit]
    cases hv : fe.2 with
    | some p =>
      obtain ⟨oid, fm⟩ := p
      exact mem_builderInsert.mpr (Or.inl ⟨he, hne⟩)
    | none => exact mem_removeIfExists he hne

theorem rebuildDirs_frame :
    ∀ (dirs : List (String × EditMap)) (b r : Tree),
      rebuildDirs b dirs = .ok r → ∀ e : TreeEntry, e ∈ b →
      (∀ kg ∈ dirs, kg.1 ≠ e.1) → e ∈ r
  | [], b, r, h, e, he, _ => by
    rw [rebuildDirs_nil] at h
    injection h with h
    exact h ▸ he
  | (dn, dv) :: rest, b, r, h, e, he, hn => by
    have hne : e.1 ≠ dn := fun hc => hn (dn, dv) (List.mem_cons_self _ _) hc.symm
    rw [rebuildDirs] at h
    split at h
    · exact absurd h (by simp)
    · split at h
      · exact absurd h (by simp)
      · split at h
        · exact absurd h (by simp)
        · split at h
          · exact rebuildDirs_frame rest _ r h e
              (mem_removeIfExists he hne)
              (fun kg hkg => hn kg (List.mem_cons_of_mem _ hkg))
          · exact rebuildDirs_frame rest _ r h e
              (mem_builderInsert.mpr (Or.inl ⟨he, hne⟩))
              (fun kg hkg => hn kg (List.mem_cons_of_mem _ hkg))

/-- **C10**: rebuild only touches the top-level names that occur as the
first component of an edit path; every other entry of the base appears in
the rebuilt tree unchanged (same name, id and mode). -/
theorem rebuild_frame (base : Option Tree) (edits : EditMap) (r : Tree)
    (h : rebuild_tree base edits = .ok (.tree r)) (e : TreeEntry)
    (he : e ∈ base.getD []) (hn : e.1 ∉ editFirsts edits) : e ∈ r := by
  rw [rebuild_tree] at h
  split at h
  · exact absurd h (by simp)
  · rename_i builder2 hdirs
    injection h with h
    injection h with h
    subst h
    refine rebuildDirs_frame _ _ _ hdirs e ?_ ?_
    · exact filesFold_frame _ _ e he
        (fun fe hfe hc => hn (hc ▸ partition_file_key hfe))
    · exact fun kg hkg hc => hn (hc ▸ partition_dir_key hkg)

/-- Concrete instance of C10: an entry whose name no edit path starts
with survives a rebuild untouched. -/
theorem rebuild_frame_witness :
    ("keep", Oid.blob 1, 33188) ∈ ([("keep", Oid.blob 1, 33188)] : Tree) := by
  have h : rebuild_tree (some [("keep", .blob 1, 33188), ("t", .blob 2, 33188)])
      [(["t"], none)] = .ok (.tree [("keep", .blob 1, 33188)]) := by
    rw [rebuild_tree]
    simp only [partitionEdits, insertAssoc, Option.getD_some,
      List.foldl_cons, List.foldl_nil, applyFileEdit]
    rw [show remove_entry_if_exists
      [("keep", Oid.blob 1, 33188), ("t", Oid.blob 2, 33188)] "t" =
      [("keep", Oid.blob 1, 33188)] from by
        rw [remove_entry_if_exists]
        simp [lookupEntry, removeEntry, List.filter]]
    rw [rebuildDirs_nil]
  exact rebuild_frame _ _ _ h _ (by simp) (by simp [editFirsts])


/-! ### The empty-subtree invariant of the rebuild -/

/-- No entry (recursively) points at an empty subtree. -/
def hasNoEmptySubtrees : Oid → Bool
  | .blob _ => true
  | .tree [] => true
  | .tree ((_, id, _) :: rest) =>
    !(Oid.beq id (.tree [])) &&
    hasNoEmptySubtrees id && hasNoEmptySubtrees (.tree rest)
termination_by o => sizeOf o
decreasing_by
  all_goals (simp_wf; try omega)

/-- Entry-wise characterisation of `hasNoEmptySubtrees` on trees. -/
theorem hasNoEmptySubtrees_tree_iff :
    ∀ b : Tree, hasNoEmptySubtrees (.tree b) = true ↔
      ∀ e ∈ b, e.2.1 ≠ Oid.tree [] ∧ hasNoEmptySubtrees e.2.1 = true
  | [] => by
    rw [hasNoEmptySubtrees]
    simp
  | (n, id, m) :: rest => by
    rw [hasNoEmptySubtrees]
    have hrest := hasNoEmptySubtrees_tree_iff rest
    rw [Bool.and_eq_true, Bool.and_eq_true, Bool.not_eq_true']
    constructor
    · rintro ⟨⟨h1, h2⟩, h3⟩ e he
      rcases List.mem_cons.mp he with rfl | he'
      · refine ⟨fun hc => ?_, h2⟩
        rw [show ((n, id, m) : TreeEntry).2.1 = id from rfl] at hc
        rw [hc, show Oid.beq (.tree []) (.tree []) = true from
          (Oid.beq_iff_eq _ _).mpr rfl] at h1
        simp at h1
      · exact hrest.mp h3 e he'
    · intro h
      obtain ⟨h1, h2⟩ := h (n, id, m) (List.mem_cons_self _ _)
      refine ⟨⟨?_, h2⟩,
        hrest.mpr (fun e he => h e (List.mem_cons_of_mem _ he))⟩
      cases hbeq : Oid.beq id (.tree [])
      · rfl
      · exact absurd ((Oid.beq_iff_eq _ _).mp hbeq) h1

theorem hasNoEmptySubtrees_blob (n : Nat) :
    hasNoEmptySubtrees (.blob n) = true := by
  rw [hasNoEmptySubtrees]

theorem hasNoEmptySubtrees_nilTree : hasNoEmptySubtrees (.tree []) = true := by
  rw [hasNoEmptySubtrees]

theorem lookupAssoc_mem {α β : Type} [DecidableEq α] {k : α} {v : β} :
    ∀ {l : List (α × β)}, lookupAssoc k l = some v → (k, v) ∈ l
  | [], h => by simp [lookupAssoc] at h
  | (k', v') :: rest, h => by
    rw [lookupAssoc] at h
    by_cases hk : k' = k
    · rw [if_pos hk] at h
      injection h with h
      subst hk; subst h
      exact List.mem_cons_self _ _
    · rw [if_neg hk] at h
      exact List.mem_cons_of_mem _ (lookupAssoc_mem h)

theorem partition_file_val :
    ∀ {em : EditMap} {f : String} {v : Option (Oid × Nat)},
      (f, v) ∈ (partitionEdits em).1 → ([f], v) ∈ em
  | [], f, v, h => by simp [partitionEdits] at h
  | ([], w) :: rest, f, v, h => by
    rw [show (partitionEdits (([], w) :: rest)).1 = (partitionEdits rest).1
      from rfl] at h
    exact List.mem_cons_of_mem _ (partition_file_val h)
  | ([g], w) :: rest, f, v, h => by
    rw [show (partitionEdits (([g], w) :: rest)).1 =
      insertAssoc g w (partitionEdits rest).1 from rfl] at h
    rcases mem_insertAssoc h with h1 | h1
    · injection h1 with e1 e2
      subst e1; subst e2
      exact List.mem_cons_self _ _
    · exact List.mem_cons_of_mem _ (partition_file_val h1)
  | (g :: g2 :: r, w) :: rest, f, v, h => by
    rw [show (partitionEdits ((g :: g2 :: r, w) :: rest)).1 =
      (partitionEdits rest).1 from rfl] at h
    exact List.mem_cons_of_mem _ (partition_file_val h)

theorem partition_dir_val {em : EditMap} {k : String} {g : EditMap}
    (h : (k, g) ∈ (partitionEdits em).2) :
    ∀ {r : List String} {v : Option (Oid × Nat)}, (r, v) ∈ g →
      (k :: r, v) ∈ em := by
  induction em generalizing k g with
  | nil => simp [partitionEdits] at h
  | cons hd rest ih =>
    obtain ⟨p, w⟩ := hd
    cases p with
    | nil =>
      rw [show (partitionEdits (([], w) :: rest)).2 = (partitionEdits rest).2
        from rfl] at h
      exact fun hrv => List.mem_cons_of_mem _ (ih h hrv)
    | cons f ptail =>
      cases ptail with
      | nil =>
        rw [show (partitionEdits (([f], w) :: rest)).2 =
          (partitionEdits rest).2 from rfl] at h
        exact fun hrv => List.mem_cons_of_mem _ (ih h hrv)
      | cons g2 r0 =>
        rw [show (partitionEdits ((f :: g2 :: r0, w) :: rest)).2 =
          insertAssoc f (insertAssoc (g2 :: r0) w
            ((lookupAssoc f (partitionEdits rest).2).getD []))
            (partitionEdits rest).2 from rfl] at h
        intro r v hrv
        rcases mem_insertAssoc h with h1 | h1
        · injection h1 with e1 e2
          rw [e2] at hrv
          rcases mem_insertAssoc hrv with h2 | h2
          · injection h2 with e3 e4
            rw [e1, e3, e4]
            exact List.mem_cons_self _ _
          · rw [e1]
            cases hLA : lookupAssoc f (partitionEdits rest).2 with
            | none =>
              rw [hLA] at h2
              simp at h2
            | some g0 =>
              rw [hLA] at h2
              simp only [Option.getD_some] at h2
              exact List.mem_cons_of_mem _ (ih (lookupAssoc_mem hLA) h2)
        · exact List.mem_cons_of_mem _ (ih h1 hrv)

theorem member_dirsWeight {dirs : List (String × EditMap)} {k : String}
    {g : EditMap} (h : (k, g) ∈ dirs) : editWeight g + 1 ≤ dirsWeight dirs := by
  induction dirs with
  | nil => simp at h
  | cons hd rest ih =>
    obtain ⟨k', g'⟩ := hd
    rw [dirsWeight_cons]
    rcases List.mem_cons.mp h with heq | hmem
    · injection heq with e1 e2
      subst e2
      omega
    · have := ih hmem
      omega

/-- All entries of a builder point at non-empty, recursively non-empty
subtrees. -/
def entriesOk (b : Tree) : Prop :=
  ∀ e ∈ b, e.2.1 ≠ Oid.tree [] ∧ hasNoEmptySubtrees e.2.1 = true

theorem entriesOk_removeEntry {b : Tree} {f : String} (h : entriesOk b) :
    entriesOk (removeEntry b f) :=
  fun e he => h e (mem_removeEntry.mp he).1

theorem entriesOk_removeIfExists {b : Tree} {f : String} (h : entriesOk b) :
    entriesOk (remove_entry_if_exists b f) :=
  fun e he => h e (mem_of_mem_removeIfExists he)

theorem entriesOk_builderInsert {b : Tree} {f : String} {id : Oid} {m : Nat}
    (h : entriesOk b) (h1 : id ≠ .tree []) (h2 : hasNoEmptySubtrees id = true) :
    entriesOk (builderInsert b f id m) := by
  intro e he
  rcases mem_builderInsert.mp he with ⟨he', -⟩ | rfl
  · exact h e he'
  · exact ⟨h1, h2⟩

theorem filesFold_no_empty :
    ∀ (files : List (String × Option (Oid × Nat))) (b : Tree),
      entriesOk b →
      (∀ f o m, (f, some (o, m)) ∈ files →
        o ≠ .tree [] ∧ hasNoEmptySubtrees o = true) →
      entriesOk (files.foldl applyFileEdit b)
  | [], b, hb, _ => hb
  | fe :: rest, b, hb, hv => by
    rw [List.foldl_cons]
    refine filesFold_no_empty rest _ ?_
      (fun f o m hm => hv f o m (List.mem_cons_of_mem _ hm))
    obtain ⟨f, v⟩ := fe
    rw [applyFileEdit]
    cases v with
    | some p =>
      obtain ⟨o, m⟩ := p
      obtain ⟨h1, h2⟩ := hv f o m (List.mem_cons_self _ _)
      exact entriesOk_builderInsert hb h1 h2
    | none => exact entriesOk_removeIfExists hb

theorem builderExistingTree_no_empty {b : Tree} {dn : String}
    {ex : Option Tree} (hb : entriesOk b)
    (h : builderExistingTree b dn = .ok ex) :
    hasNoEmptySubtrees (.tree (ex.getD [])) = true := by
  rw [builderExistingTree] at h
  split at h
  · rename_i nm id mode hlook
    split at h
    · split at h
      · exact absurd h (by simp)
      · rename_i t hft
        injection h with h
        subst h
        have hmem := lookupEntry_mem hlook
        have h2 := (hb _ hmem).2
        have hid := find_tree_ok hft
        rw [hid] at h2
        simpa using h2
    · injection h with h
      subst h
      exact hasNoEmptySubtrees_nilTree
  · injection h with h
    subst h
    exact hasNoEmptySubtrees_nilTree

/-- Amended **C3**: provided the base has no entry pointing at an empty
subtree (recursively) and no `Some` edit writes an empty subtree id
(recursively), the rebuilt tree has no entry pointing at an empty
subtree: recursively rebuilt children that come back empty are pruned
instead of inserted. -/
theorem rebuild_no_empty_subtrees :
    ∀ (N : Nat) (base : Option Tree) (edits : EditMap) (r : Oid),
      editWeight edits ≤ N →
      hasNoEmptySubtrees (.tree (base.getD [])) = true →
      (∀ p o m, (p, some (o, m)) ∈ edits →
        o ≠ .tree [] ∧ hasNoEmptySubtrees o = true) →
      rebuild_tree base edits = .ok r →
      hasNoEmptySubtrees r = true := by
  intro N
  induction N using Nat.strong_induction_on with
  | _ N IH =>
  intro base edits r hw hbase hvals h
  rw [rebuild_tree] at h
  split at h
  · exact absurd h (by simp)
  · rename_i builder2 hdirs
    injection h with h
    subst h
    have hb1 : entriesOk ((partitionEdits edits).1.foldl applyFileEdit
        (base.getD [])) := by
      refine filesFold_no_empty _ _ ?_ ?_
      · exact (hasNoEmptySubtrees_tree_iff _).mp hbase
      · intro f o m hm
        exact hvals [f] o m (partition_file_val hm)
    have aux : ∀ (dirs : List (String × EditMap)),
        (∀ kg ∈ dirs, editWeight kg.2 < N) →
        (∀ k g, (k, g) ∈ dirs → ∀ p o m, (p, some (o, m)) ∈ g →
          o ≠ .tree [] ∧ hasNoEmptySubtrees o = true) →
        ∀ b r', entriesOk b → rebuildDirs b dirs = .ok r' → entriesOk r' := by
      intro dirs
      induction dirs with
      | nil =>
        intro _ _ b r' hb hh
        rw [rebuildDirs_nil] at hh
        injection hh with hh
        exact hh ▸ hb
      | cons hd rest ihd =>
        obtain ⟨dn, dv⟩ := hd
        intro hwts hvg b r' hb hh
        rw [rebuildDirs] at hh
        split at hh
        · exact absurd hh (by simp)
        · rename_i ex hex
          split at hh
          · exact absurd hh (by simp)
          · rename_i noid hchild
            split at hh
            · exact absurd hh (by simp)
            · rename_i ntree hfind
              have hchildOk : hasNoEmptySubtrees noid = true := by
                refine IH (editWeight dv)
                  (hwts (dn, dv) (List.mem_cons_self _ _)) ex dv noid le_rfl
                  (builderExistingTree_no_empty hb hex) ?_ hchild
                intro p o m hm
                exact hvg dn dv (List.mem_cons_self _ _) p o m hm
              split at hh
              · exact ihd (fun kg hkg => hwts kg (List.mem_cons_of_mem _ hkg))
                  (fun k g hkg => hvg k g (List.mem_cons_of_mem _ hkg))
                  _ r' (entriesOk_removeIfExists hb) hh
              · rename_i hne
                have hshape := find_tree_ok hfind
                subst hshape
                have hnn : Oid.tree ntree ≠ Oid.tree [] := by
                  intro hc
                  injection hc with hc
                  rw [hc] at hne
                  simp at hne
                exact ihd (fun kg hkg => hwts kg (List.mem_cons_of_mem _ hkg))
                  (fun k g hkg => hvg k g (List.mem_cons_of_mem _ hkg))
                  _ r'
                  (entriesOk_builderInsert hb hnn hchildOk) hh
    have hb2 : entriesOk builder2 := by
      refine aux _ ?_ ?_ _ _ hb1 hdirs
      · intro kg hkg
        obtain ⟨k, g⟩ := kg
        have h1 := member_dirsWeight hkg
        have h2 := partition_dirsWeight edits
        show editWeight g < N
        omega
      · intro k g hkg p o m hm
        exact hvals (k :: p) o m (partition_dir_val hkg hm)
    exact (hasNoEmptySubtrees_tree_iff _).mpr hb2

/-- Witness for the amended C3: a nested `Some` edit produces a rebuilt
tree with no empty subtrees. -/
theorem rebuild_no_empty_subtrees_witness :
    hasNoEmptySubtrees
      (.tree [("a", .tree [("b", .blob 3, 33188)], treeFileMode)]) = true := by
  have h : rebuild_tree none [(["a", "b"], some (.blob 3, 33188))] =
      .ok (.tree [("a", .tree [("b", .blob 3, 33188)], treeFileMode)]) := by
    simp [rebuild_tree, rebuildDirs, partitionEdits, insertAssoc, lookupAssoc,
      builderExistingTree, builderInsert, removeEntry, remove_entry_if_exists,
      lookupEntry, find_tree, applyFileEdit]
  refine rebuild_no_empty_subtrees (editWeight [(["a", "b"],
    some (.blob 3, 33188))]) none _ _ le_rfl
    (by simp only [Option.getD_none]; exact hasNoEmptySubtrees_nilTree) ?_ h
  intro p o m hm
  simp only [List.mem_singleton, Prod.mk.injEq, Option.some.injEq] at hm
  obtain ⟨-, rfl, -⟩ := hm
  exact ⟨by simp, hasNoEmptySubtrees_blob 3⟩

/-- Counterexample to **C3** as stated: a `Some` edit whose value is the
id of an empty tree is inserted verbatim, so the rebuilt tree contains an
entry pointing at an empty subtree. -/
theorem rebuild_empty_subtree_counterexample :
    rebuild_tree none [(["f"], some (.tree [], 16384))] =
      .ok (.tree [("f", .tree [], 16384)]) ∧
    ("f", Oid.tree [], 16384) ∈ ([("f", .tree [], 16384)] : Tree) ∧
    hasNoEmptySubtrees (.tree [("f", .tree [], 16384)]) = false := by
  refine ⟨?_, by simp, by rw [hasNoEmptySubtrees]; simp [Oid.beq]⟩
  rw [rebuild_tree]
  simp only [partitionEdits, insertAssoc, List.foldl_cons, List.foldl_nil,
    applyFileEdit, builderInsert, removeEntry, Option.getD_none,
    List.filter_nil, List.nil_append]
  rw [rebuildDirs_nil]


/-! ### Deleting a single leaf path (C5) -/

theorem mem_dedupNames : ∀ {l : List String} {x : String},
    x ∈ dedupNames l ↔ x ∈ l
  | [], x => by rw [dedupNames]
  | n :: rest, x => by
    rw [dedupNames]
    simp only [List.mem_cons]
    constructor
    · rintro (rfl | h)
      · exact Or.inl rfl
      · have := (mem_dedupNames).mp h
        exact Or.inr (List.mem_of_mem_filter this)
    · rintro (rfl | h)
      · exact Or.inl rfl
      · by_cases hx : x = n
        · exact Or.inl hx
        · refine Or.inr ((mem_dedupNames).mpr ?_)
          exact List.mem_filter.mpr ⟨h, by simpa using hx⟩
termination_by l => l.length
decreasing_by
  all_goals
    simp only [List.length_cons]
    have := List.length_filter_le (fun m => m ≠ n) rest
    omega

theorem dedupNames_nodup : ∀ (l : List String), (dedupNames l).Nodup
  | [] => by rw [dedupNames]; exact List.nodup_nil
  | n :: rest => by
    rw [dedupNames]
    refine List.nodup_cons.mpr ⟨?_, dedupNames_nodup _⟩
    intro hc
    have := mem_dedupNames.mp hc
    have := List.of_mem_filter this
    simp at this
termination_by l => l.length
decreasing_by
  simp only [List.length_cons]
  have := List.length_filter_le (fun m => m ≠ n) rest
  omega

theorem unionNames_nodup (lhs rhs : Tree) : (unionNames lhs rhs).Nodup := by
  rw [unionNames]
  exact dedupNames_nodup _

theorem mem_unionNames {lhs rhs : Tree} {x : String} :
    x ∈ unionNames lhs rhs ↔ x ∈ treeNames lhs ∨ x ∈ treeNames rhs := by
  rw [unionNames, mem_dedupNames, List.mem_append]

/-- If all names except `f` look up equally on both sides and the step at
`f` yields `out`, the entry loop over a duplicate-free name list
containing `f` yields exactly `out`. -/
theorem diffNames_single {lhs rhs : Tree} {f : String}
    {out : List (List String)} (cp : List String)
    (hothers : ∀ n, n ≠ f → lookupEntry lhs n = lookupEntry rhs n)
    (hf : diffOne cp lhs rhs f = .ok out) :
    ∀ ns : List String, ns.Nodup → f ∈ ns →
      diffNames cp lhs rhs ns = .ok out := by
  intro ns
  induction ns with
  | nil => intro _ h; simp at h
  | cons n rest ih =>
    intro hnod hmem
    obtain ⟨hn, hrest⟩ := List.nodup_cons.mp hnod
    rcases List.mem_cons.mp hmem with rfl | hmem'
    · rw [diffNames_cons, hf,
        diffNames_skipAll cp (fun m hm => hothers m (fun hc => hn (hc ▸ hm)))]
      simp
    · have hne : n ≠ f := fun hc => hn (hc ▸ hmem')
      rw [diffNames_cons, diffOne_skip cp (hothers n hne), ih hrest hmem']
      rfl

/-- The tree produced by `rebuild_tree` for the single edit `{p: None}`,
written as a recursive specification: remove the entry at the last
component, pruning directories that become empty along the way. -/
def deleteLeaf : Tree → List String → Tree
  | t, [] => t
  | t, [f] => remove_entry_if_exists t f
  | t, f :: g :: r =>
    match lookupEntry t f with
    | some (_, .tree sub, _) =>
      if (deleteLeaf sub (g :: r)).isEmpty then remove_entry_if_exists t f
      else builderInsert t f (.tree (deleteLeaf sub (g :: r))) treeFileMode
    | _ => remove_entry_if_exists t f

theorem treeGetPath_nil_tree : ∀ (q : List String), treeGetPath [] q = none
  | [] => rfl
  | [_] => rfl
  | _ :: _ :: _ => rfl

/-- `rebuild_tree` with the single edit `{p: None}` computes `deleteLeaf`
on a well-formed base containing `p`. -/
theorem rebuild_delete_eq :
    ∀ (p : List String) (t : Tree), wfTree t = true →
      (∃ o m, treeGetPath t p = some (o, m)) →
      rebuild_tree (some t) [(p, none)] = .ok (.tree (deleteLeaf t p))
  | [], t, _, hp => by
    obtain ⟨o, m, hp⟩ := hp
    rw [treeGetPath] at hp
    exact absurd hp (by simp)
  | [f], t, _, _ => by
    rw [rebuild_tree]
    simp only [partitionEdits, insertAssoc, List.foldl_cons, List.foldl_nil,
      applyFileEdit, Option.getD_some]
    rw [rebuildDirs_nil]
    rw [show deleteLeaf t [f] = remove_entry_if_exists t f from rfl]
  | f :: g :: r, t, hwf, hp => by
    obtain ⟨o, m, hp⟩ := hp
    rw [show treeGetPath t (f :: g :: r) =
      (match lookupEntry t f with
       | some (_, id, _) =>
         match id with
         | .tree sub => treeGetPath sub (g :: r)
         | .blob _ => none
       | none => none) from rfl] at hp
    cases hlook : lookupEntry t f with
    | none => rw [hlook] at hp; exact absurd hp (by simp)
    | some e =>
      obtain ⟨nm, id, mode⟩ := e
      rw [hlook] at hp
      cases id with
      | blob b => exact absurd hp (by simp)
      | tree sub =>
        have hnm : nm = f := lookupEntry_name hlook
        rw [hnm] at hlook
        obtain ⟨hmode, hwfsub⟩ := wf_entry_tree hwf (lookupEntry_mem hlook)
        have hrec := rebuild_delete_eq (g :: r) sub hwfsub ⟨o, m, hp⟩
        rw [rebuild_tree]
        simp only [partitionEdits, insertAssoc, lookupAssoc, Option.getD_none,
          Option.getD_some, List.foldl_nil]
        rw [rebuildDirs]
        have hex : builderExistingTree t f = .ok (some sub) := by
          rw [builderExistingTree, hlook, hmode]
          rfl
        simp only [hex, hrec, find_tree, rebuildDirs_nil]
        rw [show deleteLeaf t (f :: g :: r) =
          (if (deleteLeaf sub (g :: r)).isEmpty then remove_entry_if_exists t f
           else builderInsert t f (.tree (deleteLeaf sub (g :: r)))
             treeFileMode) from by
          rw [deleteLeaf, hlook]]
        by_cases hemp : (deleteLeaf sub (g :: r)).isEmpty
        · rw [if_pos hemp, if_pos hemp]
        · rw [if_neg hemp, if_neg hemp]


theorem mem_treeNames_of_lookup {t : Tree} {n : String} {e : TreeEntry}
    (h : lookupEntry t n = some e) : n ∈ treeNames t :=
  List.mem_map.mpr ⟨e, lookupEntry_mem h, lookupEntry_name h⟩

theorem builderInsert_ne_nil (b : Tree) (f : String) (id : Oid) (m : Nat) :
    builderInsert b f id m ≠ [] := by
  rw [builderInsert]
  simp

theorem deleteLeaf_ne :
    ∀ (p : List String) (t : Tree), p ≠ [] → wfTree t = true →
      (∃ o m, treeGetPath t p = some (o, m)) → deleteLeaf t p ≠ t
  | [], _, hne, _, _ => absurd rfl hne
  | [f], t, _, _, hp => by
    obtain ⟨o, m, hp⟩ := hp
    rw [show treeGetPath t [f] =
      (lookupEntry t f).map (fun e => (e.2.1, e.2.2)) from rfl] at hp
    cases hlook : lookupEntry t f with
    | none => rw [hlook] at hp; exact absurd hp (by simp)
    | some e =>
      intro hc
      have h1 : lookupEntry (deleteLeaf t [f]) f = none :=
        lookupEntry_removeIfExists_self t f
      rw [hc, hlook] at h1
      exact absurd h1 (by simp)
  | f :: g :: r, t, _, hwf, hp => by
    obtain ⟨o, m, hp⟩ := hp
    rw [show treeGetPath t (f :: g :: r) =
      (match lookupEntry t f with
       | some (_, id, _) =>
         match id with
         | .tree sub => treeGetPath sub (g :: r)
         | .blob _ => none
       | none => none) from rfl] at hp
    cases hlook : lookupEntry t f with
    | none => rw [hlook] at hp; exact absurd hp (by simp)
    | some e =>
      obtain ⟨nm, id, mode⟩ := e
      rw [hlook] at hp
      cases id with
      | blob b => exact absurd hp (by simp)
      | tree sub =>
        have hnm : nm = f := lookupEntry_name hlook
        rw [hnm] at hlook
        obtain ⟨hmode, hwfsub⟩ := wf_entry_tree hwf (lookupEntry_mem hlook)
        have hdel : deleteLeaf t (f :: g :: r) =
            (if (deleteLeaf sub (g :: r)).isEmpty then
              remove_entry_if_exists t f
             else builderInsert t f (.tree (deleteLeaf sub (g :: r)))
               treeFileMode) := by
          rw [deleteLeaf, hlook]
        by_cases hemp : (deleteLeaf sub (g :: r)).isEmpty
        · rw [hdel, if_pos hemp]
          intro hc
          have h1 : lookupEntry (remove_entry_if_exists t f) f = none :=
            lookupEntry_removeIfExists_self t f
          rw [hc, hlook] at h1
          exact absurd h1 (by simp)
        · rw [hdel, if_neg hemp]
          intro hc
          have h1 : lookupEntry (builderInsert t f
              (.tree (deleteLeaf sub (g :: r))) treeFileMode) f =
              some (f, .tree (deleteLeaf sub (g :: r)), treeFileMode) :=
            lookupEntry_builderInsert_self t f _ _
          rw [hc, hlook] at h1
          injection h1 with h1
          injection h1 with e1 e2
          injection e2 with e2 e3
          injection e2 with e2
          exact deleteLeaf_ne (g :: r) sub (by simp) hwfsub ⟨o, m, hp⟩ e2.symm

theorem remove_if_exists_eq_nil {t : Tree} {f : String} {e : TreeEntry}
    (hlook : lookupEntry t f = some e) (hwf : wfTree t = true)
    (h : remove_entry_if_exists t f = []) : t = [e] := by
  rw [remove_entry_if_exists, hlook] at h
  have h2 : removeEntry t f = [] := h
  have hall : ∀ e' ∈ t, e'.1 = f := by
    intro e' he'
    by_contra hne
    have : e' ∈ removeEntry t f := mem_removeEntry.mpr ⟨he', hne⟩
    rw [h2] at this
    simp at this
  have hmem := lookupEntry_mem hlook
  cases t with
  | nil => simp at hmem
  | cons e0 rest =>
    obtain ⟨n0, id0, m0⟩ := e0
    obtain ⟨-, -, hnames, -⟩ := wfTree_cons hwf
    cases rest with
    | cons e1 r1 =>
      exfalso
      have h0 : n0 = f := hall (n0, id0, m0) (List.mem_cons_self _ _)
      have h1 : e1.1 = f :=
        hall e1 (List.mem_cons_of_mem _ (List.mem_cons_self _ _))
      exact hnames (by
        rw [h0]
        exact List.mem_map.mpr ⟨e1, List.mem_cons_self _ _, h1⟩)
    | nil =>
      have h0 : n0 = f := hall (n0, id0, m0) (List.mem_cons_self _ _)
      rw [show lookupEntry [(n0, id0, m0)] f =
        (if n0 = f then some (n0, id0, m0) else none) from rfl,
        if_pos h0] at hlook
      injection hlook with hlook
      rw [hlook]

theorem leafPaths_of_deleteLeaf_empty :
    ∀ (p : List String) (t : Tree) (o : Oid) (m : Nat), p ≠ [] →
      wfTree t = true → treeGetPath t p = some (o, m) →
      filemode_is_tree m = false → deleteLeaf t p = [] → leafPaths t = [p]
  | [], _, _, _, hne, _, _, _, _ => absurd rfl hne
  | [f], t, o, m, _, hwf, hp, hm, hdel => by
    rw [show treeGetPath t [f] =
      (lookupEntry t f).map (fun e => (e.2.1, e.2.2)) from rfl] at hp
    cases hlook : lookupEntry t f with
    | none => rw [hlook] at hp; exact absurd hp (by simp)
    | some e =>
      obtain ⟨nm, id, mode⟩ := e
      rw [hlook] at hp
      injection hp with hp
      injection hp with hp1 hp2
      have hnm : nm = f := lookupEntry_name hlook
      rw [show deleteLeaf t [f] = remove_entry_if_exists t f from rfl] at hdel
      have ht := remove_if_exists_eq_nil hlook hwf hdel
      rw [ht, leafPaths_cons, leafPaths_nil]
      simp only at hp1 hp2
      rw [hp1, hp2] at hlook ⊢
      rw [show filemode_is_tree m = false from hm]
      rw [hnm]
      rfl
  | f :: g :: r, t, o, m, _, hwf, hp, hm, hdel => by
    rw [show treeGetPath t (f :: g :: r) =
      (match lookupEntry t f with
       | some (_, id, _) =>
         match id with
         | .tree sub => treeGetPath sub (g :: r)
         | .blob _ => none
       | none => none) from rfl] at hp
    cases hlook : lookupEntry t f with
    | none => rw [hlook] at hp; exact absurd hp (by simp)
    | some e =>
      obtain ⟨nm, id, mode⟩ := e
      rw [hlook] at hp
      cases id with
      | blob b => exact absurd hp (by simp)
      | tree sub =>
        have hnm : nm = f := lookupEntry_name hlook
        rw [hnm] at hlook
        obtain ⟨hmode, hwfsub⟩ := wf_entry_tree hwf (lookupEntry_mem hlook)
        rw [show deleteLeaf t (f :: g :: r) =
          (if (deleteLeaf sub (g :: r)).isEmpty then
            remove_entry_if_exists t f
           else builderInsert t f (.tree (deleteLeaf sub (g :: r)))
             treeFileMode) from by rw [deleteLeaf, hlook]] at hdel
        by_cases hemp : (deleteLeaf sub (g :: r)).isEmpty
        · rw [if_pos hemp] at hdel
          have ht := remove_if_exists_eq_nil hlook hwf hdel
          have hsub : leafPaths sub = [g :: r] :=
            leafPaths_of_deleteLeaf_empty (g :: r) sub o m (by simp) hwfsub hp
              hm (List.isEmpty_iff.mp hemp)
          rw [ht, leafPaths_cons, leafPaths_nil, hmode,
            filemode_is_tree_treeFileMode]
          simp only [if_true, hsub]
          rfl
        · rw [if_neg hemp] at hdel
          exact absurd hdel (builderInsert_ne_nil t f _ _)

theorem diffOne_tree_tree_neq {lhs rhs : Tree} {n : String} {a b : Oid}
    {m : Nat} (cp : List String)
    (hl : lookupEntry lhs n = some (n, a, m))
    (hr : lookupEntry rhs n = some (n, b, m))
    (tm : filemode_is_tree m = true) (hab : a ≠ b)
    {A B : Tree} (hA : find_tree a = .ok A) (hB : find_tree b = .ok B) :
    diffOne cp lhs rhs n = diffTrees (cp ++ [n]) A B := by
  have hcl : classify_entry (lookupEntry lhs n) = .Tree a m := by
    rw [hl]; simp [classify_entry, tm]
  have hcr : classify_entry (lookupEntry rhs n) = .Tree b m := by
    rw [hr]; simp [classify_entry, tm]
  rw [diffOne]
  split <;> simp_all [Oid.beq_iff_eq]
  split <;> simp_all
  split <;> simp_all

/-- Diffing the single-leaf deletion against the original reports exactly
the deleted path. -/
theorem diff_deleteLeaf :
    ∀ (p : List String) (t : Tree) (o : Oid) (m : Nat), p ≠ [] →
      wfTree t = true → treeGetPath t p = some (o, m) →
      filemode_is_tree m = false →
      ∀ cp, diffTrees cp (deleteLeaf t p) t = .ok [cp ++ p]
  | [], _, _, _, hne, _, _, _ => absurd rfl hne
  | [f], t, o, m, _, hwf, hp, hm => by
    intro cp
    rw [show treeGetPath t [f] =
      (lookupEntry t f).map (fun e => (e.2.1, e.2.2)) from rfl] at hp
    cases hlook : lookupEntry t f with
    | none => rw [hlook] at hp; exact absurd hp (by simp)
    | some e =>
      obtain ⟨nm, id, mode⟩ := e
      rw [hlook] at hp
      injection hp with hp
      injection hp with hp1 hp2
      simp only at hp1 hp2
      have hnm : nm = f := lookupEntry_name hlook
      rw [hnm, hp1, hp2] at hlook
      rw [show deleteLeaf t [f] = remove_entry_if_exists t f from rfl]
      rw [diffTrees_eq]
      rw [diffNames_single cp
        (fun n hn => lookupEntry_removeIfExists_other t hn)
        (diffOne_absent_notatree cp (lookupEntry_removeIfExists_self t f)
          hlook hm)
        (unionNames _ t) (unionNames_nodup _ t)
        (mem_unionNames.mpr (Or.inr (mem_treeNames_of_lookup hlook)))]
  | f :: g :: r, t, o, m, _, hwf, hp, hm => by
    intro cp
    rw [show treeGetPath t (f :: g :: r) =
      (match lookupEntry t f with
       | some (_, id, _) =>
         match id with
         | .tree sub => treeGetPath sub (g :: r)
         | .blob _ => none
       | none => none) from rfl] at hp
    cases hlook : lookupEntry t f with
    | none => rw [hlook] at hp; exact absurd hp (by simp)
    | some e =>
      obtain ⟨nm, id, mode⟩ := e
      rw [hlook] at hp
      cases id with
      | blob b => exact absurd hp (by simp)
      | tree sub =>
        have hnm : nm = f := lookupEntry_name hlook
        rw [hnm] at hlook
        obtain ⟨hmode, hwfsub⟩ := wf_entry_tree hwf (lookupEntry_mem hlook)
        rw [hmode] at hlook
        have hdel : deleteLeaf t (f :: g :: r) =
            (if (deleteLeaf sub (g :: r)).isEmpty then
              remove_entry_if_exists t f
             else builderInsert t f (.tree (deleteLeaf sub (g :: r)))
               treeFileMode) := by
          rw [deleteLeaf, hlook]
        by_cases hemp : (deleteLeaf sub (g :: r)).isEmpty
        · rw [hdel, if_pos hemp, diffTrees_eq]
          have hsub : leafPaths sub = [g :: r] :=
            leafPaths_of_deleteLeaf_empty (g :: r) sub o m (by simp) hwfsub hp
              hm (List.isEmpty_iff.mp hemp)
          have hone : diffOne cp (remove_entry_if_exists t f) t f =
              diffTrees (cp ++ [f]) sub [] :=
            diffOne_absent_tree cp (lookupEntry_removeIfExists_self t f)
              hlook filemode_is_tree_treeFileMode rfl
          have habs := (diffTrees_vs_absent (sizeOf sub) sub le_rfl hwfsub
            (cp ++ [f])).1
          have hf' : diffOne cp (remove_entry_if_exists t f) t f =
              .ok [cp ++ (f :: g :: r)] := by
            rw [hone, habs, hsub]; simp
          rw [diffNames_single cp
            (fun n hn => lookupEntry_removeIfExists_other t hn) hf'
            (unionNames _ t) (unionNames_nodup _ t)
            (mem_unionNames.mpr (Or.inr (mem_treeNames_of_lookup hlook)))]
        · rw [hdel, if_neg hemp, diffTrees_eq]
          have hne2 : Oid.tree (deleteLeaf sub (g :: r)) ≠ Oid.tree sub := by
            intro hc
            injection hc with hc
            exact deleteLeaf_ne (g :: r) sub (by simp) hwfsub ⟨o, m, hp⟩ hc
          have hrec := diff_deleteLeaf (g :: r) sub o m (by simp) hwfsub hp hm
            (cp ++ [f])
          have hone : diffOne cp
              (builderInsert t f (.tree (deleteLeaf sub (g :: r)))
                treeFileMode) t f =
              diffTrees (cp ++ [f]) (deleteLeaf sub (g :: r)) sub :=
            diffOne_tree_tree_neq cp
              (lookupEntry_builderInsert_self t f _ _) hlook
              filemode_is_tree_treeFileMode hne2 rfl rfl
          have hf' : diffOne cp
              (builderInsert t f (.tree (deleteLeaf sub (g :: r)))
                treeFileMode) t f = .ok [cp ++ (f :: g :: r)] := by
            rw [hone, hrec]; simp
          rw [diffNames_single cp
            (fun n hn => lookupEntry_builderInsert_other t _ _ hn) hf'
            (unionNames _ t) (unionNames_nodup _ t)
            (mem_unionNames.mpr (Or.inr (mem_treeNames_of_lookup hlook)))]


/-- **C5 counterexample**: the unamended claim fails when the deleted path
names a directory. Deleting `["d"]` from `{"d": {"f": blob}}` rebuilds to
the empty tree, but the diff against the original reports `{["d","f"]}`
(the path formerly inside the directory), not `{["d"]}`. -/
theorem delete_then_diff_counterexample :
    treeGetPath [("d", .tree [("f", .blob 1, 33188)], 16384)] ["d"] =
      some (.tree [("f", .blob 1, 33188)], 16384) ∧
    rebuild_tree (some [("d", .tree [("f", .blob 1, 33188)], 16384)])
      [(["d"], none)] = .ok (.tree []) ∧
    get_changed_paths_between_trees (some ([] : Tree))
      (some [("d", .tree [("f", .blob 1, 33188)], 16384)]) =
      .ok {["d", "f"]} ∧
    ({["d", "f"]} : Finset (List String)) ≠ {["d"]} := by
  have hwfsub : wfTree [("f", .blob 1, 33188)] = true := by
    rw [wfTree.eq_def]
    simp [wfTree_nil, filemode_is_tree_blobMode]
  have hwfT : wfTree [("d", .tree [("f", .blob 1, 33188)], 16384)] = true := by
    rw [wfTree.eq_def]
    simp [wfTree_nil, hwfsub, treeFileMode]
  refine ⟨rfl, ?_, ?_, ?_⟩
  · rw [rebuild_delete_eq ["d"] _ hwfT
      ⟨.tree [("f", .blob 1, 33188)], 16384, rfl⟩]
    rfl
  · have hd := (diffTrees_vs_absent
      (sizeOf [("d", .tree [("f", .blob 1, 33188)], 16384)]) _ le_rfl hwfT
      []).2
    have hlp : leafPaths [("d", .tree [("f", .blob 1, 33188)], 16384)] =
        [["d", "f"]] := by
      simp [leafPaths_cons, leafPaths_nil, filemode_is_tree_treeMode,
        filemode_is_tree_blobMode]
    rw [get_changed_paths_between_trees]
    simp only [Option.getD_some]
    rw [hd, hlp]
    rfl
  · intro hc
    rw [Finset.singleton_inj] at hc
    simp at hc

/-- **C5** (amended): for a well-formed tree `T` and a path `p` resolving
in `T` to a non-tree (leaf) entry, rebuilding `T` with the single edit
`{p: None}` deletes the leaf (pruning now-empty ancestor directories) and
diffing the rebuilt tree against `T` reports exactly the set `{p}`. The
original claim over arbitrary present paths fails when `p` names a
directory: the diff then reports the paths formerly inside it, never the
directory's own path. -/
theorem delete_then_diff (t : Tree) (p : List String) (o : Oid) (m : Nat)
    (hwf : wfTree t = true) (hp : treeGetPath t p = some (o, m))
    (hm : filemode_is_tree m = false) :
    rebuild_tree (some t) [(p, none)] = .ok (.tree (deleteLeaf t p)) ∧
    get_changed_paths_between_trees (some (deleteLeaf t p)) (some t) =
      .ok {p} := by
  have hne : p ≠ [] := by
    intro hc
    rw [hc, show treeGetPath t [] = none from rfl] at hp
    exact absurd hp (by simp)
  refine ⟨rebuild_delete_eq p t hwf ⟨o, m, hp⟩, ?_⟩
  rw [get_changed_paths_between_trees]
  simp only [Option.getD_some]
  rw [diff_deleteLeaf p t o m hne hwf hp hm []]
  simp [Except.map]

/-- Deletion symmetry on a concrete fixture: removing `bar/bar.txt` from
`{"bar": {"bar.txt", "baz.txt"}}` and diffing against the original
reports exactly `{["bar", "bar.txt"]}`. -/
theorem delete_then_diff_witness :
    rebuild_tree (some [("bar", .tree [("bar.txt", .blob 10, 33188),
        ("baz.txt", .blob 11, 33188)], 16384)])
      [(["bar", "bar.txt"], none)] =
      .ok (.tree (deleteLeaf [("bar", .tree [("bar.txt", .blob 10, 33188),
        ("baz.txt", .blob 11, 33188)], 16384)] ["bar", "bar.txt"])) ∧
    get_changed_paths_between_trees
      (some (deleteLeaf [("bar", .tree [("bar.txt", .blob 10, 33188),
        ("baz.txt", .blob 11, 33188)], 16384)] ["bar", "bar.txt"]))
      (some [("bar", .tree [("bar.txt", .blob 10, 33188),
        ("baz.txt", .blob 11, 33188)], 16384)]) =
      .ok {["bar", "bar.txt"]} := by
  have hwf1 : wfTree [("baz.txt", .blob 11, 33188)] = true := by
    rw [wfTree.eq_def]
    simp [wfTree_nil, filemode_is_tree_blobMode]
  have hwfsub : wfTree [("bar.txt", .blob 10, 33188),
      ("baz.txt", .blob 11, 33188)] = true := by
    rw [wfTree.eq_def]
    simp [hwf1, filemode_is_tree_blobMode]
  have hwf : wfTree [("bar", .tree [("bar.txt", .blob 10, 33188),
      ("baz.txt", .blob 11, 33188)], 16384)] = true := by
    rw [wfTree.eq_def]
    simp [wfTree_nil, hwfsub, treeFileMode]
  exact delete_then_diff _ ["bar", "bar.txt"] (.blob 10) 33188 hwf rfl rfl


/-! ### Round-trip readback of an edit map -/

theorem insertAssoc_self_mem {α β : Type} [DecidableEq α] (k : α) (v : β) :
    ∀ l : List (α × β), (k, v) ∈ insertAssoc k v l
  | [] => by simp [insertAssoc]
  | (k', v') :: rest => by
    rw [insertAssoc]
    by_cases hkk : k' = k
    · rw [if_pos hkk]
      exact List.mem_cons_self _ _
    · rw [if_neg hkk]
      exact List.mem_cons_of_mem _ (insertAssoc_self_mem k v rest)

theorem mem_insertAssoc_of_ne {α β : Type} [DecidableEq α] {k k' : α}
    {v v' : β} (hne : k' ≠ k) :
    ∀ {l : List (α × β)}, (k', v') ∈ l → (k', v') ∈ insertAssoc k v l
  | [], h => by simp at h
  | (k0, v0) :: rest, h => by
    rw [insertAssoc]
    by_cases hk0 : k0 = k
    · rw [if_pos hk0]
      rcases List.mem_cons.mp h with h1 | h1
      · exfalso
        injection h1 with ha _
        exact hne (ha.trans hk0)
      · exact List.mem_cons_of_mem _ h1
    · rw [if_neg hk0]
      rcases List.mem_cons.mp h with h1 | h1
      · exact h1 ▸ List.mem_cons_self _ _
      · exact List.mem_cons_of_mem _ (mem_insertAssoc_of_ne hne h1)

theorem insertAssoc_ne_nil {α β : Type} [DecidableEq α] (k : α) (v : β) :
    ∀ l : List (α × β), insertAssoc k v l ≠ []
  | [] => by simp [insertAssoc]
  | (k', v') :: rest => by
    rw [insertAssoc]
    split <;> simp

theorem keys_insertAssoc {α β : Type} [DecidableEq α] {k a : α} {v : β} :
    ∀ {l : List (α × β)}, a ∈ (insertAssoc k v l).map Prod.fst ↔
      a = k ∨ a ∈ l.map Prod.fst
  | [] => by simp [insertAssoc]
  | (k', v') :: rest => by
    rw [insertAssoc]
    by_cases hkk : k' = k
    · rw [if_pos hkk]
      subst hkk
      simp
    · rw [if_neg hkk]
      simp only [List.map_cons, List.mem_cons]
      rw [show (a ∈ (insertAssoc k v rest).map Prod.fst ↔
        a = k ∨ a ∈ rest.map Prod.fst) from keys_insertAssoc]
      tauto

theorem insertAssoc_keys_nodup {α β : Type} [DecidableEq α] {k : α} {v : β} :
    ∀ {l : List (α × β)}, (l.map Prod.fst).Nodup →
      ((insertAssoc k v l).map Prod.fst).Nodup
  | [], _ => by simp [insertAssoc]
  | (k', v') :: rest, h => by
    rw [List.map_cons, List.nodup_cons] at h
    obtain ⟨hk', hrest⟩ := h
    rw [insertAssoc]
    by_cases hkk : k' = k
    · rw [if_pos hkk, List.map_cons, List.nodup_cons]
      exact ⟨hkk ▸ hk', hrest⟩
    · rw [if_neg hkk, List.map_cons, List.nodup_cons]
      refine ⟨?_, insertAssoc_keys_nodup hrest⟩
      intro hc
      rcases keys_insertAssoc.mp hc with h3 | h3
      · exact hkk h3
      · exact hk' h3

theorem lookupAssoc_of_mem_nodup {α β : Type} [DecidableEq α] {k : α}
    {v : β} : ∀ {l : List (α × β)}, (l.map Prod.fst).Nodup → (k, v) ∈ l →
      lookupAssoc k l = some v
  | [], _, h => by simp at h
  | (k', v') :: rest, hnod, h => by
    rw [List.map_cons, List.nodup_cons] at hnod
    obtain ⟨hk', hrest⟩ := hnod
    rw [lookupAssoc]
    rcases List.mem_cons.mp h with h1 | h1
    · injection h1 with ha hb
      rw [if_pos ha.symm, hb]
    · have hne : k' ≠ k := by
        intro hc
        exact hk' (hc ▸ List.mem_map.mpr ⟨(k, v), h1, rfl⟩)
      rw [if_neg hne]
      exact lookupAssoc_of_mem_nodup hrest h1

/-- Both maps produced by the partition have distinct keys. -/
theorem partition_keys_nodup :
    ∀ em : EditMap, ((partitionEdits em).1.map Prod.fst).Nodup ∧
      ((partitionEdits em).2.map Prod.fst).Nodup
  | [] => by simp [partitionEdits]
  | ([], v) :: rest => partition_keys_nodup rest
  | ([f], v) :: rest => by
    obtain ⟨h1, h2⟩ := partition_keys_nodup rest
    exact ⟨insertAssoc_keys_nodup h1, h2⟩
  | (f :: s :: r, v) :: rest => by
    obtain ⟨h1, h2⟩ := partition_keys_nodup rest
    exact ⟨h1, insertAssoc_keys_nodup h2⟩

/-- Every grouped subtree edit map is nonempty and holds only nonempty
(stripped) paths. -/
theorem partition_dir_group_paths :
    ∀ {em : EditMap} {k : String} {g : EditMap},
      (k, g) ∈ (partitionEdits em).2 →
      g ≠ [] ∧ ∀ q w, (q, w) ∈ g → q ≠ ([] : List String)
  | [], k, g, h => by simp [partitionEdits] at h
  | ([], v) :: rest, k, g, h =>
    partition_dir_group_paths (show (k, g) ∈ (partitionEdits rest).2 from h)
  | ([f], v) :: rest, k, g, h =>
    partition_dir_group_paths (show (k, g) ∈ (partitionEdits rest).2 from h)
  | (f :: s :: r, v) :: rest, k, g, h => by
    rw [show (partitionEdits ((f :: s :: r, v) :: rest)).2 =
      insertAssoc f (insertAssoc (s :: r) v
        ((lookupAssoc f (partitionEdits rest).2).getD []))
        (partitionEdits rest).2 from rfl] at h
    rcases mem_insertAssoc h with h1 | h1
    · injection h1 with _ hg
      subst hg
      refine ⟨insertAssoc_ne_nil _ _ _, ?_⟩
      intro q w hq
      rcases mem_insertAssoc hq with h2 | h2
      · injection h2 with h2a _
        rw [h2a]
        simp
      · cases hla : lookupAssoc f (partitionEdits rest).2 with
        | none =>
          rw [hla] at h2
          simp at h2
        | some g0 =>
          rw [hla] at h2
          simp only [Option.getD_some] at h2
          exact (partition_dir_group_paths (lookupAssoc_mem hla)).2 q w h2
    · exact partition_dir_group_paths h1

/-- The side condition under which an association-list edit map is a
faithful model of the `HashMap` the source builds and the round trip
holds: no empty path, and no edit path that is a proper initial segment
of another (the source's nested processing of `a/b` can destroy a
sibling edit at `a`). -/
def pathsIndependent (em : EditMap) : Prop :=
  (∀ e ∈ em, e.1 ≠ ([] : List String)) ∧
  ∀ e ∈ em, ∀ e' ∈ em, (∃ s, e.1 ++ s = e'.1) → e = e'

theorem pathsIndependent_of_cons {e0 : List String × Option (Oid × Nat)}
    {rest : EditMap} (h : pathsIndependent (e0 :: rest)) :
    pathsIndependent rest :=
  ⟨fun e he => h.1 e (List.mem_cons_of_mem _ he),
   fun e he e' he' hp =>
     h.2 e (List.mem_cons_of_mem _ he) e' (List.mem_cons_of_mem _ he') hp⟩

/-- A single-component edit occurs in the file map of the partition. -/
theorem partition_mem_file :
    ∀ {em : EditMap}, pathsIndependent em →
      ∀ {f : String} {v : Option (Oid × Nat)}, ([f], v) ∈ em →
        (f, v) ∈ (partitionEdits em).1
  | [], _, f, v, h => by simp at h
  | ([], w) :: rest, hPI, f, v, h => by
    rcases List.mem_cons.mp h with h1 | h1
    · exact absurd h1 (by simp)
    · exact partition_mem_file (pathsIndependent_of_cons hPI) h1
  | ([f'], w) :: rest, hPI, f, v, h => by
    rw [show (partitionEdits (([f'], w) :: rest)).1 =
      insertAssoc f' w (partitionEdits rest).1 from rfl]
    rcases List.mem_cons.mp h with h1 | h1
    · injection h1 with ha hb
      injection ha with ha _
      rw [← ha, ← hb]
      exact insertAssoc_self_mem f v _
    · by_cases hff : f' = f
      · have heq := hPI.2 ([f], v) h (([f'], w))
          (List.mem_cons_self _ _) ⟨[], by rw [hff]; rfl⟩
        injection heq with _ hb
        rw [hff, ← hb]
        exact insertAssoc_self_mem f v _
      · exact mem_insertAssoc_of_ne (fun hc => hff hc.symm)
          (partition_mem_file (pathsIndependent_of_cons hPI) h1)
  | (f0 :: s :: r, w) :: rest, hPI, f, v, h => by
    rw [show (partitionEdits ((f0 :: s :: r, w) :: rest)).1 =
      (partitionEdits rest).1 from rfl]
    rcases List.mem_cons.mp h with h1 | h1
    · exfalso
      injection h1 with ha _
      injection ha with _ ha
      exact absurd ha (by simp)
    · exact partition_mem_file (pathsIndependent_of_cons hPI) h1

/-- A multi-component edit occurs, stripped of its first component, in
the group of the partition keyed by that first component. -/
theorem partition_mem_dir :
    ∀ {em : EditMap}, pathsIndependent em →
      ∀ {f : String} {q : List String} {v : Option (Oid × Nat)}, q ≠ [] →
        (f :: q, v) ∈ em →
        ∃ g, (f, g) ∈ (partitionEdits em).2 ∧ (q, v) ∈ g
  | [], _, f, q, v, _, h => by simp at h
  | ([], w) :: rest, hPI, f, q, v, hq, h => by
    rcases List.mem_cons.mp h with h1 | h1
    · exact absurd h1 (by simp)
    · exact partition_mem_dir (pathsIndependent_of_cons hPI) hq h1
  | ([f0], w) :: rest, hPI, f, q, v, hq, h => by
    rw [show (partitionEdits (([f0], w) :: rest)).2 =
      (partitionEdits rest).2 from rfl]
    rcases List.mem_cons.mp h with h1 | h1
    · exfalso
      injection h1 with ha _
      injection ha with _ ha
      exact hq ha
    · exact partition_mem_dir (pathsIndependent_of_cons hPI) hq h1
  | (f0 :: s :: r, w) :: rest, hPI, f, q, v, hq, h => by
    rw [show (partitionEdits ((f0 :: s :: r, w) :: rest)).2 =
      insertAssoc f0 (insertAssoc (s :: r) w
        ((lookupAssoc f0 (partitionEdits rest).2).getD []))
        (partitionEdits rest).2 from rfl]
    rcases List.mem_cons.mp h with h1 | h1
    · injection h1 with ha hb
      injection ha with ha1 ha2
      refine ⟨insertAssoc (s :: r) w
        ((lookupAssoc f0 (partitionEdits rest).2).getD []), ?_, ?_⟩
      · rw [← ha1]
        exact insertAssoc_self_mem f _ _
      · rw [ha2, hb]
        exact insertAssoc_self_mem _ _ _
    · obtain ⟨g, hg, hqv⟩ :=
        partition_mem_dir (pathsIndependent_of_cons hPI) hq h1
      by_cases hf0 : f0 = f
      · subst hf0
        have hla : lookupAssoc f0 (partitionEdits rest).2 = some g :=
          lookupAssoc_of_mem_nodup (partition_keys_nodup rest).2 hg
        rw [hla]
        simp only [Option.getD_some]
        refine ⟨insertAssoc (s :: r) w g, insertAssoc_self_mem _ _ _, ?_⟩
        by_cases hqs : q = s :: r
        · have heq := hPI.2 (f0 :: q, v) (List.mem_cons_of_mem _ h1)
            ((f0 :: s :: r, w)) (List.mem_cons_self _ _)
            ⟨[], by rw [hqs]; simp⟩
          injection heq with _ hb
          rw [hqs, ← hb]
          exact insertAssoc_self_mem _ _ _
        · exact mem_insertAssoc_of_ne hqs hqv
      · exact ⟨g, mem_insertAssoc_of_ne (fun hc => hf0 hc.symm) hg, hqv⟩

/-- A member path's length bounds the edit weight from below. -/
theorem member_editWeight {em : EditMap} {p : List String}
    {v : Option (Oid × Nat)} (h : (p, v) ∈ em) :
    p.length ≤ editWeight em := by
  induction em with
  | nil => simp at h
  | cons hd tl ih =>
    obtain ⟨p0, v0⟩ := hd
    rw [editWeight_cons]
    rcases List.mem_cons.mp h with h1 | h1
    · injection h1 with ha _
      rw [← ha]
      omega
    · have := ih h1
      omega


/-- Names not appearing as a file-edit key keep their lookup across the
file fold. -/
theorem filesFold_lookup_frame :
    ∀ (files : List (String × Option (Oid × Nat))) (b : Tree) (f : String),
      f ∉ files.map Prod.fst →
      lookupEntry (files.foldl applyFileEdit b) f = lookupEntry b f
  | [], _, _, _ => rfl
  | (f0, v0) :: rest, b, f, h => by
    rw [List.map_cons, List.mem_cons] at h
    push_neg at h
    rw [List.foldl_cons, filesFold_lookup_frame rest _ f h.2]
    rw [applyFileEdit]
    cases v0 with
    | some x =>
      obtain ⟨oid, fm⟩ := x
      exact lookupEntry_builderInsert_other b _ _ h.1
    | none => exact lookupEntry_removeIfExists_other b h.1

/-- After the file fold, a file edit's key resolves to exactly its
recorded value (entry for `Some`, absence for `None`). -/
theorem filesFold_lookup :
    ∀ (files : List (String × Option (Oid × Nat))) (b : Tree)
      (f : String) (v : Option (Oid × Nat)),
      (files.map Prod.fst).Nodup → (f, v) ∈ files →
      lookupEntry (files.foldl applyFileEdit b) f =
        v.map (fun x => (f, x.1, x.2))
  | [], _, _, _, _, h => by simp at h
  | (f0, v0) :: rest, b, f, v, hnod, h => by
    rw [List.map_cons, List.nodup_cons] at hnod
    obtain ⟨hf0, hrest⟩ := hnod
    rw [List.foldl_cons]
    rcases List.mem_cons.mp h with h1 | h1
    · injection h1 with ha hb
      rw [← ha] at hf0
      rw [filesFold_lookup_frame rest _ f hf0]
      rw [applyFileEdit, ← ha, ← hb]
      cases v with
      | some x =>
        obtain ⟨oid, fm⟩ := x
        rw [show (match (f, some ((oid, fm) : Oid × Nat)).2 with
          | some (o, fm') => builderInsert b f o fm'
          | none => remove_entry_if_exists b f) =
          builderInsert b f oid fm from rfl]
        rw [lookupEntry_builderInsert_self]
        rfl
      | none =>
        rw [show (match (f, (none : Option (Oid × Nat))).2 with
          | some (o, fm') => builderInsert b f o fm'
          | none => remove_entry_if_exists b f) =
          remove_entry_if_exists b f from rfl]
        rw [lookupEntry_removeIfExists_self]
        rfl
    · exact filesFold_lookup rest _ f v hrest h1

/-- Names not appearing as a dir-group key keep their lookup across the
grouped-subtree loop. -/
theorem rebuildDirs_lookup_frame :
    ∀ (dirs : List (String × EditMap)) (b r : Tree),
      rebuildDirs b dirs = .ok r → ∀ n, n ∉ dirs.map Prod.fst →
      lookupEntry r n = lookupEntry b n
  | [], b, r, h, n, _ => by
    rw [rebuildDirs_nil] at h
    injection h with h
    rw [h]
  | (dn, dv) :: rest, b, r, h, n, hn => by
    rw [List.map_cons, List.mem_cons] at hn
    push_neg at hn
    rw [rebuildDirs] at h
    split at h
    · exact absurd h (by simp)
    · split at h
      · exact absurd h (by simp)
      · split at h
        · exact absurd h (by simp)
        · split at h
          · rw [rebuildDirs_lookup_frame rest _ r h n hn.2]
            exact lookupEntry_removeIfExists_other _ hn.1
          · rw [rebuildDirs_lookup_frame rest _ r h n hn.2]
            exact lookupEntry_builderInsert_other _ _ _ hn.1

/-- The grouped-subtree loop resolves each dir key according to the
recursive rebuild of its group over some seed: pruned (absent) when the
rebuilt child is empty, a subtree entry of the rebuilt child otherwise. -/
theorem rebuildDirs_lookup :
    ∀ (dirs : List (String × EditMap)) (b r : Tree),
      rebuildDirs b dirs = .ok r → (dirs.map Prod.fst).Nodup →
      ∀ (k : String) (g : EditMap), (k, g) ∈ dirs →
      ∃ (ex : Option Tree) (child : Tree),
        rebuild_tree ex g = .ok (.tree child) ∧
        (child.isEmpty = true → lookupEntry r k = none) ∧
        (child.isEmpty = false →
          lookupEntry r k = some (k, .tree child, treeFileMode))
  | [], _, _, _, _, k, g, hm => by simp at hm
  | (dn, dv) :: rest, b, r, h, hnod, k, g, hm => by
    rw [List.map_cons, List.nodup_cons] at hnod
    obtain ⟨hdn, hrest⟩ := hnod
    rw [rebuildDirs] at h
    split at h
    · exact absurd h (by simp)
    · rename_i ex hex
      split at h
      · exact absurd h (by simp)
      · rename_i oid hoid
        split at h
        · exact absurd h (by simp)
        · rename_i child hchild
          rcases List.mem_cons.mp hm with h1 | h1
          · injection h1 with ha hb
            obtain ⟨t0, ht0⟩ := rebuild_tree_ok_shape hoid
            have hct : child = t0 := by
              rw [ht0, show find_tree (.tree t0) = .ok t0 from rfl] at hchild
              injection hchild with hc
              exact hc.symm
            by_cases hemp : child.isEmpty = true
            · rw [if_pos hemp] at h
              refine ⟨ex, child, ?_, fun _ => ?_, fun hf => absurd hemp
                (by rw [hf]; simp)⟩
              · rw [hb, hoid, ht0, hct]
              · rw [rebuildDirs_lookup_frame rest _ r h k (ha ▸ hdn), ha]
                exact lookupEntry_removeIfExists_self b dn
            · rw [if_neg hemp] at h
              refine ⟨ex, child, ?_, fun ht => absurd ht hemp, fun _ => ?_⟩
              · rw [hb, hoid, ht0, hct]
              · rw [rebuildDirs_lookup_frame rest _ r h k (ha ▸ hdn), ha]
                rw [lookupEntry_builderInsert_self, ht0, hct]
          · split at h
            · exact rebuildDirs_lookup rest _ r h hrest k g h1
            · exact rebuildDirs_lookup rest _ r h hrest k g h1


/-- **C6 counterexample**: with edits `{a: Some(blob,mode), a/b: None}`
(realisable as a `HashMap`: the keys are distinct), the rebuild succeeds
but reading back `a` yields absence, not the recorded `Some` value: the
grouped pass for `a/b` runs after the file pass, discards the freshly
inserted non-tree entry `a`, rebuilds an empty subtree and prunes `a`. -/
theorem rebuild_round_trip_counterexample :
    rebuild_tree none
      [(["a"], some (.blob 7, 33188)), (["a", "b"], none)] =
      .ok (.tree []) ∧
    treeGetPath [] ["a"] = none ∧
    some ((Oid.blob 7 : Oid), (33188 : Nat)) ≠ (none : Option (Oid × Nat)) := by
  refine ⟨?_, rfl, by simp⟩
  rw [rebuild_tree]
  simp only [partitionEdits, insertAssoc, lookupAssoc, Option.getD_none,
    Option.getD_some, List.foldl_cons, List.foldl_nil, applyFileEdit]
  rw [show builderInsert ([] : Tree) "a" (Oid.blob 7) 33188 =
    [("a", Oid.blob 7, 33188)] from rfl]
  rw [rebuildDirs]
  rw [show builderExistingTree [("a", Oid.blob 7, 33188)] "a" = .ok none
    from rfl]
  simp only [rebuild_none_delete ["b"]]
  simp only [find_tree, List.isEmpty_nil, if_pos]
  rw [show remove_entry_if_exists [("a", Oid.blob 7, 33188)] "a" = []
    from rfl]
  rw [rebuildDirs_nil]

/-- **C6** (amended): if no edit path is empty or an initial segment of
another (so the association-list edit map models a `HashMap` faithfully
and no nested edit reprocesses a sibling's top-level name), then after a
successful rebuild every edited path reads back from the result exactly
as recorded: the `(id, mode)` pair of a `Some` edit, absence for a `None`
edit. The unamended claim fails for the overlapping edits
`{a: Some(..), a/b: None}`. -/
theorem rebuild_round_trip :
    ∀ N : Nat, ∀ em : EditMap, editWeight em ≤ N →
      ∀ (base : Option Tree) (r : Tree),
      pathsIndependent em → rebuild_tree base em = .ok (.tree r) →
      ∀ (p : List String) (v : Option (Oid × Nat)), (p, v) ∈ em →
        treeGetPath r p = v := by
  intro N
  induction N using Nat.strong_induction_on with
  | _ N IH =>
  intro em hw base r hPI h p v hm
  rw [rebuild_tree] at h
  split at h
  · exact absurd h (by simp)
  · rename_i builder2 hdirs
    injection h with h
    injection h with h
    subst h
    cases p with
    | nil => exact absurd rfl (hPI.1 ([], v) hm)
    | cons f q =>
      cases q with
      | nil =>
        have hf1 : (f, v) ∈ (partitionEdits em).1 := partition_mem_file hPI hm
        have hlook := filesFold_lookup (partitionEdits em).1 (base.getD [])
          f v (partition_keys_nodup em).1 hf1
        have hfr : f ∉ (partitionEdits em).2.map Prod.fst := by
          intro hc
          obtain ⟨kg, hkg, hk0⟩ := List.mem_map.mp hc
          obtain ⟨k0, g0⟩ := kg
          simp only at hk0
          obtain ⟨hgne, hqne⟩ := partition_dir_group_paths hkg
          obtain ⟨qw, hqw⟩ := List.exists_mem_of_ne_nil g0 hgne
          obtain ⟨q0, w0⟩ := qw
          have hmem := partition_dir_val hkg hqw
          have heq := hPI.2 ([f], v) hm ((k0 :: q0, w0)) hmem
            ⟨q0, by rw [hk0]; rfl⟩
          injection heq with ha _
          injection ha with _ ha
          exact hqne q0 w0 hqw ha.symm
        rw [show treeGetPath builder2 [f] =
          (lookupEntry builder2 f).map (fun e => (e.2.1, e.2.2)) from rfl]
        rw [rebuildDirs_lookup_frame _ _ _ hdirs f hfr, hlook]
        cases v with
        | some x => rfl
        | none => rfl
      | cons s q' =>
        obtain ⟨g, hg, hqg⟩ := partition_mem_dir hPI (by simp) hm
        obtain ⟨ex, child, hrt, hce, hcn⟩ := rebuildDirs_lookup _ _ _ hdirs
          (partition_keys_nodup em).2 f g hg
        have hwg : editWeight g + 1 ≤ editWeight em :=
          le_trans (member_dirsWeight hg) (partition_dirsWeight em)
        have hPIg : pathsIndependent g := by
          constructor
          · intro e he
            exact (partition_dir_group_paths hg).2 e.1 e.2 he
          · intro e he e' he' hp
            obtain ⟨e1, e2⟩ := e
            obtain ⟨e1', e2'⟩ := e'
            obtain ⟨s0, hs0⟩ := hp
            have h1 := partition_dir_val hg he
            have h2 := partition_dir_val hg he'
            have heq := hPI.2 (f :: e1, e2) h1 ((f :: e1', e2')) h2
              ⟨s0, by simp only at hs0; rw [List.cons_append, hs0]⟩
            injection heq with ha hb
            injection ha with _ ha
            rw [ha, hb]
        have hread_q : treeGetPath child (s :: q') = v :=
          IH (editWeight g) (by omega) g le_rfl ex child hPIg hrt
            (s :: q') v hqg
        by_cases hemp : child.isEmpty = true
        · have hchild : child = [] := List.isEmpty_iff.mp hemp
          rw [hchild] at hread_q
          have hnone : treeGetPath ([] : Tree) (s :: q') = none := by
            cases q' with
            | nil => rfl
            | cons a b => rfl
          rw [hnone] at hread_q
          rw [show treeGetPath builder2 (f :: s :: q') =
            (match lookupEntry builder2 f with
             | some (_, id, _) =>
               match id with
               | .tree sub => treeGetPath sub (s :: q')
               | .blob _ => none
             | none => none) from rfl]
          rw [hce hemp]
          exact hread_q
        · have hemp' : child.isEmpty = false := by
            revert hemp
            cases child.isEmpty <;> simp
          rw [show treeGetPath builder2 (f :: s :: q') =
            (match lookupEntry builder2 f with
             | some (_, id, _) =>
               match id with
               | .tree sub => treeGetPath sub (s :: q')
               | .blob _ => none
             | none => none) from rfl]
          rw [hcn hemp']
          exact hread_q

/-- Round trip on a concrete nested edit: writing `a/c := blob 2`
into the empty base reads back exactly that value. -/
theorem rebuild_round_trip_witness :
    treeGetPath [("a", .tree [("c", .blob 2, 33188)], 16384)] ["a", "c"] =
      some (.blob 2, 33188) := by
  have hin : rebuild_tree none [(["c"], some ((Oid.blob 2 : Oid),
      (33188 : Nat)))] = .ok (.tree [("c", Oid.blob 2, 33188)]) := by
    rw [rebuild_tree]
    simp only [partitionEdits, insertAssoc, Option.getD_none,
      List.foldl_cons, List.foldl_nil, applyFileEdit]
    rw [rebuildDirs_nil]
    rfl
  have h : rebuild_tree none [(["a", "c"], some ((Oid.blob 2 : Oid),
      (33188 : Nat)))] =
      .ok (.tree [("a", .tree [("c", .blob 2, 33188)], 16384)]) := by
    rw [rebuild_tree]
    simp only [partitionEdits, insertAssoc, lookupAssoc, Option.getD_none,
      List.foldl_nil]
    rw [rebuildDirs]
    rw [show builderExistingTree ([] : Tree) "a" = .ok none from rfl]
    simp only [hin]
    simp only [find_tree]
    rw [show ([("c", Oid.blob 2, 33188)] : Tree).isEmpty = false from rfl]
    simp only [Bool.false_eq_true, if_false]
    rw [rebuildDirs_nil]
    rfl
  have hPI : pathsIndependent [(["a", "c"], some ((Oid.blob 2 : Oid),
      (33188 : Nat)))] := by
    constructor
    · intro e he
      rw [List.mem_singleton.mp he]
      simp
    · intro e he e' he' _
      rw [List.mem_singleton.mp he, List.mem_singleton.mp he']
  exact rebuild_round_trip
    (editWeight [(["a", "c"], some ((Oid.blob 2 : Oid), (33188 : Nat)))])
    _ le_rfl none _ hPI h ["a", "c"] _ (List.mem_singleton_self _)


end GitExt
